import Mathlib

/-!
Verification of the `simon` governance runtime against its specification.

The Go sources are shallowly embedded: Go strings become `List Char`
(`GoStr`), Go `int` becomes `Int`, fallible functions return `Option` or
`Except`, and external effects (subprocesses, the wall clock, the file
system probed by evidence verification) are supplied as explicit oracle
parameters.  Function and field names follow the Go source
(`internal/guard`, `internal/mcp/proxy.go`, `internal/store/sqlite.go`,
`internal/runtime/runtime.go`).
-/

/-- Go strings are modelled as lists of characters. -/
abbrev GoStr := List Char

instance {e a : Type} [DecidableEq e] [DecidableEq a] :
    DecidableEq (Except e a) := fun x y =>
  match x, y with
  | .error u, .error v =>
    if h : u = v then .isTrue (by rw [h]) else .isFalse (by simp [h])
  | .error _, .ok _ => .isFalse (by simp)
  | .ok _, .error _ => .isFalse (by simp)
  | .ok u, .ok v =>
    if h : u = v then .isTrue (by rw [h]) else .isFalse (by simp [h])

/-- Build a `GoStr` from a Lean string literal. -/
def gs (s : String) : GoStr := s.toList

/-- `strings.HasPrefix`. -/
def goHasPfx (s pre : GoStr) : Bool := pre.isPrefixOf s

/-- `strings.Contains`: `sub` occurs contiguously inside `s`. -/
def goContains (s sub : GoStr) : Bool := decide (sub <:+: s)

/-- `strings.ContainsAny`: some character of `chars` occurs in `s`. -/
def goContainsAny (s chars : GoStr) : Bool := s.any (fun c => chars.contains c)

/-- `strings.ToLower` (ASCII case folding, which covers every pattern used). -/
def goToLower (s : GoStr) : GoStr := s.map Char.toLower

namespace guard

/-- `guard.Policy` (src/unnamed/part_009). -/
structure Policy where
  MaxIterations : Int
  MaxPromptTokens : Int
  MaxOutputTokens : Int
  AllowedCommands : List GoStr
  AllowedFileGlobs : List GoStr
  BlockDangerousCmd : Bool
deriving DecidableEq

/-- `guard.Violation`. -/
structure Violation where
  Rule : GoStr
  Message : GoStr
  Fatal : Bool
deriving DecidableEq

/-- `Guard.CheckBudget` (src/unnamed/part_009 lines 86-97). -/
def CheckBudget (p : Policy) (iterations promptTokens outputTokens : Int) :
    Option Violation :=
  if iterations > p.MaxIterations then
    some ⟨gs "max_iterations", gs "Iteration limit exceeded", true⟩
  else if promptTokens > p.MaxPromptTokens then
    some ⟨gs "max_prompt_tokens", gs "Prompt token budget exceeded", true⟩
  else if outputTokens > p.MaxOutputTokens then
    some ⟨gs "max_output_tokens", gs "Output token budget exceeded", true⟩
  else
    none

/-- One pass of the loop body of `Guard.CheckCommand`: does the entry
`allow` authorize `cmd`?  The Go code tests `allow == "*"`,
`allow == cmd`, and then the byte slice comparison
`cmd[:len(allow)] == allow` guarded by `len(cmd) >= len(allow)`. -/
def allowMatches (allow cmd : GoStr) : Bool :=
  allow == gs "*" || allow == cmd ||
    (decide (cmd.length ≥ allow.length) && cmd.take allow.length == allow)

/-- `Guard.CheckCommand` (src/unnamed/part_009 lines 101-119). -/
def CheckCommand (p : Policy) (cmd : GoStr) : Option Violation :=
  if p.AllowedCommands.any (fun allow => allowMatches allow cmd) then
    none
  else
    some ⟨gs "allowed_commands", gs "Command not allowed: " ++ cmd, true⟩

/-- `Guard.CheckFile` (src/unnamed/part_009 lines 20-37).  The doublestar
glob matcher is the external library `bmatcuk/doublestar`; it is passed in
as the oracle `dsMatch` (the Go code treats a match error as a non-match,
so the oracle returns the effective boolean). -/
def CheckFile (dsMatch : GoStr → GoStr → Bool) (p : Policy) (path : GoStr) :
    Option Violation :=
  if p.AllowedFileGlobs.any (fun pat => dsMatch pat path) then
    none
  else
    some ⟨gs "allowed_file_globs", gs "File access not allowed: " ++ path, true⟩

end guard

namespace fp

/-- One step of lexical path simplification: fold the next path segment
onto the stack of output segments (held in reverse order).  Mirrors the
element loop of Go `path/filepath.Clean` on a unix path. -/
def cleanStep (rooted : Bool) (stack : List GoStr) (seg : GoStr) : List GoStr :=
  if seg = [] || seg = gs "." then stack
  else if seg = gs ".." then
    match stack with
    | t :: rest => if t ≠ gs ".." then rest else gs ".." :: stack
    | [] => if rooted then [] else [gs ".."]
  else seg :: stack

/-- Go `path/filepath.Clean` for unix paths: shortest lexical equivalent.
Eliminates `.` and empty elements, resolves `..` against earlier
segments, keeps leading `..` segments of relative paths, and returns
`"."` for an empty result. -/
def clean (p : GoStr) : GoStr :=
  let rooted := goHasPfx p (gs "/")
  let segs := (p.splitOn '/').foldl (cleanStep rooted) []
  let joined := (gs "/").intercalate segs.reverse
  if rooted then '/' :: joined
  else if joined = [] then gs "." else joined

/-- Go `path/filepath.IsAbs` for unix paths. -/
def isAbs (p : GoStr) : Bool := goHasPfx p (gs "/")

/-- Go `path/filepath.Join` of two elements: non-empty elements joined
with a separator, then cleaned. -/
def join (a b : GoStr) : GoStr :=
  if a = [] && b = [] then []
  else if a = [] then clean b
  else if b = [] then clean a
  else clean (a ++ gs "/" ++ b)

/-- Go `path/filepath.Abs` relative to the working directory `cwd`
(which the process guarantees to be absolute). -/
def abs (cwd p : GoStr) : GoStr :=
  if isAbs p then clean p else join cwd p

end fp

namespace store

/-- `store.Artifact` (src/internal/store/types.go); the `CreatedAt`
timestamp carries no information used by any claim and is omitted. -/
structure Artifact where
  ID : GoStr
  SessionID : GoStr
  Path : GoStr
  Typ : GoStr
  Digest : GoStr
deriving DecidableEq

/-- The durable state of a `SQLiteStore`: the artifact root, the process
working directory (used by `filepath.Abs`), the artifact files on disk,
and the `artifacts` table rows. -/
structure StoreState where
  artifactDir : GoStr
  cwd : GoStr
  fs : List (GoStr × GoStr)
  artifacts : List Artifact
deriving DecidableEq

/-- Write a file: later writes shadow earlier ones. -/
def fsWrite (fs : List (GoStr × GoStr)) (path content : GoStr) :
    List (GoStr × GoStr) :=
  (path, content) :: fs

/-- Read a file (most recent write wins). -/
def fsRead (fs : List (GoStr × GoStr)) (path : GoStr) : Option GoStr :=
  (fs.find? (fun e => e.1 == path)).map Prod.snd

/-- `SQLiteStore.sanitizeArtifactPath` (src/internal/store/sqlite.go
lines 180-211). -/
def sanitizeArtifactPath (st : StoreState) (path : GoStr) :
    Except GoStr GoStr :=
  let cleanPath := fp.clean path
  if fp.isAbs cleanPath then
    .error (gs "absolute paths not allowed: " ++ path)
  else if goHasPfx cleanPath (gs "..") || goContains cleanPath (gs "/../") then
    .error (gs "path traversal not allowed: " ++ path)
  else
    let fullPath := fp.join st.artifactDir cleanPath
    let absArtifactDir := fp.abs st.cwd st.artifactDir
    let absFullPath := fp.abs st.cwd fullPath
    if !goHasPfx absFullPath (absArtifactDir ++ gs "/") &&
        absFullPath ≠ absArtifactDir then
      .error (gs "path escapes artifact directory: " ++ path)
    else
      .ok fullPath

/-- `SQLiteStore.SaveArtifact` (src/internal/store/sqlite.go lines
213-232): sanitize the path, write the content file, then insert the
metadata row (`id` is the table's primary key, so a duplicate insert
fails after the file write, exactly as in SQLite). -/
def SaveArtifact (st : StoreState) (a : Artifact) (content : GoStr) :
    StoreState × Option GoStr :=
  match sanitizeArtifactPath st a.Path with
  | .error e => (st, some (gs "invalid artifact path: " ++ e))
  | .ok fullPath =>
    let st' := { st with fs := fsWrite st.fs fullPath content }
    if st'.artifacts.any (fun r => r.ID == a.ID) then
      (st', some (gs "UNIQUE constraint failed: artifacts.id"))
    else
      ({ st' with artifacts := st'.artifacts ++ [a] }, none)

/-- `SQLiteStore.GetArtifact` (src/internal/store/sqlite.go lines
234-260). -/
def GetArtifact (st : StoreState) (id : GoStr) :
    Except GoStr (Artifact × GoStr) :=
  match st.artifacts.find? (fun r => r.ID == id) with
  | none => .error (gs "artifact not found: " ++ id)
  | some a =>
    match sanitizeArtifactPath st a.Path with
    | .error e => .error (gs "invalid artifact path in database: " ++ e)
    | .ok fullPath =>
      match fsRead st.fs fullPath with
      | none => .error (gs "failed to read artifact content")
      | some c => .ok (a, c)

end store

namespace re

/-- Abstract syntax for exactly the regular-expression features the
proxy's Go patterns use: single-character classes, concatenation,
alternation, Kleene star over a character class, and the word boundary
assertion.  Every starred subexpression in the Go patterns is a
single-character class, so this star is fully general for them. -/
inductive RE where
  | eps : RE
  | cls (p : Char → Bool) : RE
  | seq (r1 r2 : RE) : RE
  | alt (r1 r2 : RE) : RE
  | star (p : Char → Bool) : RE
  | bnd : RE

/-- RE2 `\w` (ASCII): `[0-9A-Za-z_]`. -/
def wordChar (c : Char) : Bool := c.isAlphanum || c == '_'

/-- RE2 `\s`: `[\t\n\f\r ]`. -/
def spaceChar (c : Char) : Bool :=
  c == ' ' || c == '\t' || c == '\n' || c == '\x0c' || c == '\r'

/-- RE2 `.`: any character except newline. -/
def dotChar (c : Char) : Bool := c != '\n'

/-- Is there a `\b` word boundary between the previous character and the
next one (`none` at the ends of the subject)? -/
def isBoundary (prev nxt : Option Char) : Bool :=
  (match prev with | some c => wordChar c | none => false) !=
    (match nxt with | some c => wordChar c | none => false)

/-- All split points of a greedy-or-not star over a character class:
every way to consume a (possibly empty) run of class characters. -/
def starSplits (p : Char → Bool) : Option Char → List Char →
    List (Option Char × List Char)
  | prev, [] => [(prev, [])]
  | prev, c :: rest =>
    (prev, c :: rest) :: (if p c then starSplits p (some c) rest else [])

/-- All ways a regex can consume a prefix of `s`; each result records the
last character consumed (for boundary assertions) and the remaining
suffix.  `prev` is the character immediately before `s` in the subject. -/
def run : RE → Option Char → List Char → List (Option Char × List Char)
  | .eps, prev, s => [(prev, s)]
  | .cls _, _, [] => []
  | .cls p, _, c :: rest => if p c then [(some c, rest)] else []
  | .seq r1 r2, prev, s => (run r1 prev s).flatMap (fun pr => run r2 pr.1 pr.2)
  | .alt r1 r2, prev, s => run r1 prev s ++ run r2 prev s
  | .star p, prev, s => starSplits p prev s
  | .bnd, prev, s => if isBoundary prev s.head? then [(prev, s)] else []

/-- Does the regex match starting at some position of the remaining
subject?  `prev` is the character before the current position. -/
def searchFrom (r : RE) (prev : Option Char) (s : List Char) : Bool :=
  !(run r prev s).isEmpty ||
    (match s with
     | [] => false
     | c :: rest => searchFrom r (some c) rest)

/-- Go `regexp.MatchString`: unanchored match anywhere in the subject. -/
def reMatch (r : RE) (s : GoStr) : Bool := searchFrom r none s

/-- Single literal character. -/
def lit (c : Char) : RE := .cls (fun x => x == c)

/-- Literal character sequence. -/
def litStr (s : String) : RE := s.toList.foldr (fun c r => .seq (lit c) r) .eps

/-- A compiled Go pattern: its source text (used in rejection messages),
its syntax, and whether it carries the `(?i)` flag.  Case-insensitive
matching is realised by lower-casing the subject, which is equivalent for
these ASCII patterns. -/
structure Pattern where
  src : GoStr
  r : RE
  ci : Bool

/-- `regexp.MatchString` including the `(?i)` handling. -/
def pmatch (p : Pattern) (s : GoStr) : Bool :=
  if p.ci then reMatch p.r (goToLower s) else reMatch p.r s

end re

namespace mcp

open re

/-- `dangerousPatterns` (src/internal/mcp/proxy.go lines 21-38), in
declaration order. -/
def dangerousPatterns : List Pattern :=
  [ ⟨gs ";\\s*\\w", .seq (lit ';') (.seq (.star spaceChar) (.cls wordChar)), false⟩
  , ⟨gs "\\|[^|]", .seq (lit '|') (.cls (fun c => c != '|')), false⟩
  , ⟨gs "\\|\\|", litStr "||", false⟩
  , ⟨gs "&&", litStr "&&", false⟩
  , ⟨gs "\\$\\(", litStr "$(", false⟩
  , ⟨gs "`", litStr "`", false⟩
  , ⟨gs ">>", litStr ">>", false⟩
  , ⟨gs "<\\(", litStr "<(", false⟩
  , ⟨gs "\\$\\\x7b", litStr "$\x7b", false⟩
  , ⟨gs "(?i)\\beval\\s", .seq .bnd (.seq (litStr "eval") (.cls spaceChar)), true⟩
  , ⟨gs "(?i)\\bsource\\s", .seq .bnd (.seq (litStr "source") (.cls spaceChar)), true⟩
  , ⟨gs "(?i)\\bexec\\s", .seq .bnd (.seq (litStr "exec") (.cls spaceChar)), true⟩
  , ⟨gs "(?i)\\bnc\\s", .seq .bnd (.seq (litStr "nc") (.cls spaceChar)), true⟩
  , ⟨gs "(?i)\\bcurl\\b.*\\|\\s*sh",
      .seq .bnd (.seq (litStr "curl") (.seq .bnd (.seq (.star dotChar)
        (.seq (lit '|') (.seq (.star spaceChar) (litStr "sh")))))), true⟩
  , ⟨gs "(?i)\\bwget\\b.*\\|\\s*sh",
      .seq .bnd (.seq (litStr "wget") (.seq .bnd (.seq (.star dotChar)
        (.seq (lit '|') (.seq (.star spaceChar) (litStr "sh")))))), true⟩
  , ⟨gs "(?i)\\b(bash|sh|zsh)\\s+-c",
      .seq .bnd (.seq (.alt (litStr "bash") (.alt (litStr "sh") (litStr "zsh")))
        (.seq (.cls spaceChar) (.seq (.star spaceChar) (litStr "-c")))), true⟩
  ]

/-- `Proxy.validateCommand` (proxy.go lines 107-114): first matching
dangerous pattern, as the rejection message. -/
def validateCommand (cmdStr : GoStr) : Option GoStr :=
  (dangerousPatterns.find? (fun p => pmatch p cmdStr)).map
    (fun p => gs "potentially dangerous command pattern detected: " ++ p.src)

/-- `shellDangerPatterns` inside `Proxy.validateShellCommand` (proxy.go
lines 120-134), in declaration order. -/
def shellDangerPatterns : List Pattern :=
  [ ⟨gs "(?i)\\beval\\s", .seq .bnd (.seq (litStr "eval") (.cls spaceChar)), true⟩
  , ⟨gs "(?i)\\bsource\\s", .seq .bnd (.seq (litStr "source") (.cls spaceChar)), true⟩
  , ⟨gs "`", litStr "`", false⟩
  , ⟨gs "\\$\\(", litStr "$(", false⟩
  , ⟨gs "(?i)\\bcurl\\b.*\\|\\s*sh",
      .seq .bnd (.seq (litStr "curl") (.seq .bnd (.seq (.star dotChar)
        (.seq (lit '|') (.seq (.star spaceChar) (litStr "sh")))))), true⟩
  , ⟨gs "(?i)\\bwget\\b.*\\|\\s*sh",
      .seq .bnd (.seq (litStr "wget") (.seq .bnd (.seq (.star dotChar)
        (.seq (lit '|') (.seq (.star spaceChar) (litStr "sh")))))), true⟩
  , ⟨gs "(?i)\\b(bash|sh|zsh)\\s+-c",
      .seq .bnd (.seq (.alt (litStr "bash") (.alt (litStr "sh") (litStr "zsh")))
        (.seq (.cls spaceChar) (.seq (.star spaceChar) (litStr "-c")))), true⟩
  , ⟨gs "(?i)\\bsudo\\s", .seq .bnd (.seq (litStr "sudo") (.cls spaceChar)), true⟩
  , ⟨gs "(?i)\\bchmod\\s+[0-7]*7",
      .seq .bnd (.seq (litStr "chmod") (.seq (.cls spaceChar)
        (.seq (.star spaceChar)
          (.seq (.star (fun c => decide ('0' ≤ c ∧ c ≤ '7'))) (lit '7'))))), true⟩
  , ⟨gs "(?i)/etc/passwd", litStr "/etc/passwd", true⟩
  , ⟨gs "(?i)/etc/shadow", litStr "/etc/shadow", true⟩
  , ⟨gs "(?i)~/.ssh", .seq (lit '~') (.seq (lit '/') (.seq (.cls dotChar) (litStr "ssh"))), true⟩
  , ⟨gs "(?i)rm\\s+-rf\\s+/",
      .seq (litStr "rm") (.seq (.cls spaceChar) (.seq (.star spaceChar)
        (.seq (litStr "-rf") (.seq (.cls spaceChar)
          (.seq (.star spaceChar) (lit '/')))))), true⟩
  ]

/-- `Proxy.validateShellCommand` (proxy.go lines 118-143). -/
def validateShellCommand (cmdStr : GoStr) : Option GoStr :=
  (shellDangerPatterns.find? (fun p => pmatch p cmdStr)).map
    (fun p => gs "dangerous shell command pattern blocked: " ++ p.src)

end mcp

/-- `strings.TrimSpace` (ASCII whitespace, which covers every subject
the claims use). -/
def goTrimSpace (s : GoStr) : GoStr :=
  let ws : GoStr := [' ', '\t', '\n', '\x0b', '\x0c', '\r']
  ((s.dropWhile (fun c => ws.contains c)).reverse.dropWhile
    (fun c => ws.contains c)).reverse

namespace mcp

/-- The quote character. -/
def sq : Char := Char.ofNat 39

/-- The backslash character. -/
def bsl : Char := Char.ofNat 92

/-- The state machine of the character loop in `Proxy.parseCommand`
(proxy.go lines 161-198).  `cur` holds the current token reversed,
`args` the finished tokens reversed. -/
def parseLoop : List Char → Bool → Bool → Bool → GoStr → List GoStr →
    Except GoStr (List GoStr)
  | [], inS, inD, _, cur, args =>
    let args := if cur ≠ [] then cur.reverse :: args else args
    if inS || inD then .error (gs "unclosed quote in command")
    else .ok args.reverse
  | c :: rest, inS, inD, esc, cur, args =>
    if esc then parseLoop rest inS inD false (c :: cur) args
    else if c == bsl && !inS then parseLoop rest inS inD true cur args
    else if c == sq && !inD then parseLoop rest (!inS) inD false cur args
    else if c == '"' && !inS then parseLoop rest inS (!inD) false cur args
    else if c == ' ' && !inS && !inD then
      if cur ≠ [] then parseLoop rest inS inD false [] (cur.reverse :: args)
      else parseLoop rest inS inD false [] args
    else parseLoop rest inS inD false (c :: cur) args

/-- `Proxy.parseCommand` (proxy.go lines 147-209): trims the command,
runs the quote-aware lexer, and returns the head token and the rest. -/
def parseCommand (cmdStr : GoStr) : Except GoStr (GoStr × List GoStr) :=
  let t := goTrimSpace cmdStr
  if t = [] then .error (gs "empty command")
  else
    match parseLoop t false false false [] [] with
    | .error e => .error e
    | .ok [] => .error (gs "no command specified")
    | .ok (h :: rest) => .ok (h, rest)

/-- `Proxy.sanitizeWorkDir` (proxy.go lines 212-232). -/
def sanitizeWorkDir (cwd dir : GoStr) : Except GoStr GoStr :=
  if dir = [] then .ok []
  else
    let cleanPath := fp.clean dir
    let absPath := fp.abs cwd cleanPath
    if goContains dir (gs "..") then
      .error (gs "path traversal not allowed in working directory")
    else
      .ok absPath

/-- The decoded `cmd` JSON argument: a string, an array (whose elements
Go renders with `fmt.Sprint` before joining), or a JSON value of any
other type. -/
inductive CmdVal where
  | str (s : GoStr)
  | arr (elems : List GoStr)
  | other
deriving DecidableEq

/-- The decoded argument object of a tool call.  `malformed` models JSON
that fails to unmarshal; a `dir` of a non-string JSON type is ignored by
the Go code and is modelled as `none`. -/
inductive ArgsVal where
  | malformed
  | obj (cmd : Option CmdVal) (dir : Option GoStr)
deriving DecidableEq

/-- `provider.ToolCall` with its argument JSON already decoded. -/
structure ToolCall where
  ID : GoStr
  Name : GoStr
  Args : ArgsVal
deriving DecidableEq

/-- A subprocess start: `/bin/bash -c cmdStr` in shell mode, or a direct
`exec` of a resolved binary.  `dir` is empty when no working directory
was set. -/
inductive Spawn where
  | shell (cmdStr dir : GoStr)
  | direct (path : GoStr) (args : List GoStr) (dir : GoStr)
deriving DecidableEq

/-- The environment the proxy runs in: `exec.LookPath` resolution, the
combined output and final error of a spawned subprocess (with the
30-second timeout and exit-status shaping of proxy.go lines 330-339
already folded in), and the nanosecond clock, strictly increasing in the
number of readings taken. -/
structure World where
  lookPath : GoStr → Option GoStr
  execOut : Spawn → GoStr × Option GoStr
  nano : Nat → Nat

/-- What `Proxy.execute` produced: the raw output string, the error (if
any), and the subprocess it started (if any). -/
structure ExecResult where
  out : GoStr
  errMsg : Option GoStr
  spawned : Option Spawn
deriving DecidableEq

/-- `Proxy.execute` (proxy.go lines 234-344) for one tool call: argument
decoding, the unconditional dangerous-pattern scan, the quote-aware
parse, the guard command check, working-directory sanitization, mode
selection on `<`/`>`, the extra shell-mode scan, and the spawn. -/
def execute (g : guard.Policy) (w : World) (cwd : GoStr) (call : ToolCall) :
    ExecResult :=
  if call.Name ≠ gs "run_shell" then
    ⟨gs "Unknown tool", some (gs "unknown tool: " ++ call.Name), none⟩
  else
    match call.Args with
    | .malformed => ⟨[], some (gs "invalid args"), none⟩
    | .obj none _ => ⟨[], some (gs "missing cmd argument"), none⟩
    | .obj (some .other) _ =>
      ⟨[], some (gs "cmd must be a string or array of strings"), none⟩
    | .obj (some cv) dirOpt =>
      let cmdStr := match cv with
        | .str s => s
        | .arr elems => (gs " ").intercalate elems
        | .other => []
      match validateCommand cmdStr with
      | some msg => ⟨[], some (gs "command validation failed: " ++ msg), none⟩
      | none =>
      match parseCommand cmdStr with
      | .error e => ⟨[], some (gs "failed to parse command: " ++ e), none⟩
      | .ok (cmdName, cmdArgs) =>
      match guard.CheckCommand g cmdName with
      | some v => ⟨[], some (gs "guard violation: " ++ v.Message), none⟩
      | none =>
      match (match dirOpt with
             | none => Except.ok ([] : GoStr)
             | some d => sanitizeWorkDir cwd d) with
      | .error e => ⟨[], some (gs "invalid working directory: " ++ e), none⟩
      | .ok dirStr =>
      let needsShell := goContainsAny cmdStr (gs "><")
      if needsShell then
        match validateShellCommand cmdStr with
        | some msg =>
          ⟨[], some (gs "shell command validation failed: " ++ msg), none⟩
        | none =>
          let sp := Spawn.shell cmdStr dirStr
          let r := w.execOut sp
          ⟨r.1, r.2, some sp⟩
      else
        match w.lookPath cmdName with
        | none => ⟨[], some (gs "command not found: " ++ cmdName), none⟩
        | some cmdPath =>
          let sp := Spawn.direct cmdPath cmdArgs dirStr
          let r := w.execOut sp
          ⟨r.1, r.2, some sp⟩

end mcp

namespace sha

/-- Truncated 32-bit addition. -/
def add32 (a b : Nat) : Nat := (a + b) % 4294967296

/-- 32-bit right rotation of a value below `2^32`. -/
def rotr32 (x n : Nat) : Nat :=
  ((x >>> n) ||| (x <<< (32 - n))) % 4294967296

/-- The UTF-8 encoding of one character, as Go's `[]byte(string)`
produces it. -/
def utf8Bytes (c : Char) : List Nat :=
  let n := c.toNat
  if n < 128 then [n]
  else if n < 2048 then
    [192 ||| (n >>> 6), 128 ||| (n &&& 63)]
  else if n < 65536 then
    [224 ||| (n >>> 12), 128 ||| ((n >>> 6) &&& 63), 128 ||| (n &&& 63)]
  else
    [240 ||| (n >>> 18), 128 ||| ((n >>> 12) &&& 63),
     128 ||| ((n >>> 6) &&& 63), 128 ||| (n &&& 63)]

/-- The bytes of a Go string. -/
def strBytes (s : GoStr) : List Nat := s.flatMap utf8Bytes

/-- Big-endian 8-byte encoding. -/
def be64 (n : Nat) : List Nat :=
  [(n >>> 56) &&& 255, (n >>> 48) &&& 255, (n >>> 40) &&& 255,
   (n >>> 32) &&& 255, (n >>> 24) &&& 255, (n >>> 16) &&& 255,
   (n >>> 8) &&& 255, n &&& 255]

/-- FIPS 180-4 padding: `0x80`, zeros to 56 mod 64, then the bit length. -/
def pad (msg : List Nat) : List Nat :=
  let L := msg.length
  let k := (64 - ((L + 9) % 64)) % 64
  msg ++ 128 :: List.replicate k 0 ++ be64 (8 * L)

/-- Big-endian 4-byte grouping into 32-bit words. -/
def toWords : List Nat → List Nat
  | b0 :: b1 :: b2 :: b3 :: rest =>
    ((b0 <<< 24) ||| (b1 <<< 16) ||| (b2 <<< 8) ||| b3) :: toWords rest
  | _ => []

/-- Split the word stream into 16-word blocks (`fuel` bounds the number
of blocks; `blocks16` supplies enough). -/
def blocks16Aux : Nat → List Nat → List (List Nat)
  | 0, _ => []
  | _, [] => []
  | fuel + 1, w :: ws => (w :: ws).take 16 :: blocks16Aux fuel ((w :: ws).drop 16)

/-- Split the word stream into 16-word blocks. -/
def blocks16 (ws : List Nat) : List (List Nat) := blocks16Aux ws.length ws

/-- The SHA-256 round constants (FIPS 180-4 section 4.2.2, written in
decimal: 0x428a2f98 = 1116352408 and so on). -/
def K : List Nat :=
  [1116352408, 1899447441, 3049323471, 3921009573, 961987163,
   1508970993, 2453635748, 2870763221, 3624381080, 310598401,
   607225278, 1426881987, 1925078388, 2162078206, 2614888103,
   3248222580, 3835390401, 4022224774, 264347078, 604807628,
   770255983, 1249150122, 1555081692, 1996064986, 2554220882,
   2821834349, 2952996808, 3210313671, 3336571891, 3584528711,
   113926993, 338241895, 666307205, 773529912, 1294757372,
   1396182291, 1695183700, 1986661051, 2177026350, 2456956037,
   2730485921, 2820302411, 3259730800, 3345764771, 3516065817,
   3600352804, 4094571909, 275423344, 430227734, 506948616,
   659060556, 883997877, 958139571, 1322822218, 1537002063,
   1747873779, 1955562222, 2024104815, 2227730452, 2361852424,
   2428436474, 2756734187, 3204031479, 3329325298]

/-- Message-schedule extension of a 16-word block to 64 words. -/
def extendW (w16 : List Nat) : List Nat :=
  (List.range 48).foldl
    (fun w _ =>
      let n := w.length
      let w15 := w.getD (n - 15) 0
      let w2 := w.getD (n - 2) 0
      let s0 := (rotr32 w15 7) ^^^ (rotr32 w15 18) ^^^ (w15 >>> 3)
      let s1 := (rotr32 w2 17) ^^^ (rotr32 w2 19) ^^^ (w2 >>> 10)
      w ++ [add32 (add32 (w.getD (n - 16) 0) s0) (add32 (w.getD (n - 7) 0) s1)])
    w16

/-- One compression round. -/
def round (st : Nat × Nat × Nat × Nat × Nat × Nat × Nat × Nat)
    (kw : Nat × Nat) : Nat × Nat × Nat × Nat × Nat × Nat × Nat × Nat :=
  let (a, b, c, d, e, f, g, h) := st
  let S1 := (rotr32 e 6) ^^^ (rotr32 e 11) ^^^ (rotr32 e 25)
  let ch := (e &&& f) ^^^ ((4294967295 - e) &&& g)
  let t1 := add32 (add32 h S1) (add32 ch (add32 kw.1 kw.2))
  let S0 := (rotr32 a 2) ^^^ (rotr32 a 13) ^^^ (rotr32 a 22)
  let mj := (a &&& b) ^^^ (a &&& c) ^^^ (b &&& c)
  let t2 := add32 S0 mj
  (add32 t1 t2, a, b, c, add32 d t1, e, f, g)

/-- Process one 16-word block into the running hash state. -/
def compress (H : List Nat) (blk : List Nat) : List Nat :=
  let w := extendW blk
  let a0 := H.getD 0 0
  let b0 := H.getD 1 0
  let c0 := H.getD 2 0
  let d0 := H.getD 3 0
  let e0 := H.getD 4 0
  let f0 := H.getD 5 0
  let g0 := H.getD 6 0
  let h0 := H.getD 7 0
  let fin := (K.zip w).foldl round (a0, b0, c0, d0, e0, f0, g0, h0)
  let (a, b, c, d, e, f, g, h) := fin
  [add32 a0 a, add32 b0 b, add32 c0 c, add32 d0 d,
   add32 e0 e, add32 f0 f, add32 g0 g, add32 h0 h]

/-- Big-endian 4-byte decomposition. -/
def be32 (n : Nat) : List Nat :=
  [(n >>> 24) &&& 255, (n >>> 16) &&& 255, (n >>> 8) &&& 255, n &&& 255]

/-- `crypto/sha256.Sum256` over a byte sequence. -/
def sha256 (msg : List Nat) : List Nat :=
  let H0 : List Nat :=
    [1779033703, 3144134277, 1013904242, 2773480762,
     1359893119, 2600822924, 528734635, 1541459225]
  ((blocks16 (toWords (pad msg))).foldl compress H0).flatMap be32

/-- One lowercase hex digit. -/
def hexChar (n : Nat) : Char :=
  if n < 10 then Char.ofNat (48 + n) else Char.ofNat (87 + n)

/-- `Proxy.hash` (proxy.go lines 354-357): lowercase hex of the SHA-256
digest of the string's bytes. -/
def sha256Hex (s : GoStr) : GoStr :=
  (sha256 (strBytes s)).flatMap (fun b => [hexChar (b / 16), hexChar (b % 16)])

end sha

/-- Decimal digits, with enough fuel to exhaust the number. -/
def natReprAux : Nat → Nat → GoStr
  | 0, _ => []
  | f + 1, n =>
    if n < 10 then [Char.ofNat (48 + n)]
    else natReprAux f (n / 10) ++ [Char.ofNat (48 + n % 10)]

/-- Decimal representation of a natural number, as `fmt.Sprintf("%d")`
renders it. -/
def natRepr (n : Nat) : GoStr := natReprAux (n + 1) n

namespace mcp

/-- `mcp.ToolResult` (proxy.go lines 50-55). -/
structure ToolResult where
  ToolCallID : GoStr
  Name : GoStr
  Digest : GoStr
  IsError : Bool
deriving DecidableEq

/-- The raw output captured for one call: an execution error is folded
into the stored text (proxy.go lines 64-69). -/
def rawOutput (g : guard.Policy) (w : World) (cwd : GoStr) (call : ToolCall) :
    GoStr :=
  match (execute g w cwd call).errMsg with
  | some e => gs "Error executing tool: " ++ e ++ gs "\n" ++ (execute g w cwd call).out
  | none => (execute g w cwd call).out

/-- `uniqueID` of proxy.go line 73: the call id and a nanosecond reading. -/
def genUID (w : World) (clock : Nat) (call : ToolCall) : GoStr :=
  call.ID ++ gs "-" ++ natRepr (w.nano clock)

/-- The artifact path of proxy.go line 74. -/
def genPath (w : World) (clock : Nat) (sessionID : GoStr) (call : ToolCall) :
    GoStr :=
  gs "artifacts/" ++ sessionID ++ gs "/" ++ call.Name ++ gs "_" ++
    genUID w clock call ++ gs ".txt"

/-- The artifact row built at proxy.go lines 76-83. -/
def genArtifact (g : guard.Policy) (w : World) (cwd : GoStr) (clock : Nat)
    (sessionID : GoStr) (call : ToolCall) : store.Artifact :=
  { ID := gs "art-" ++ sessionID ++ gs "-" ++ genUID w clock call
    SessionID := sessionID
    Path := genPath w clock sessionID call
    Typ := gs "tool_output"
    Digest := sha.sha256Hex (rawOutput g w cwd call) }

/-- The digest string returned for one call (proxy.go lines 89-99). -/
def genResult (g : guard.Policy) (w : World) (cwd : GoStr) (clock : Nat)
    (sessionID : GoStr) (call : ToolCall) : ToolResult :=
  { ToolCallID := call.ID
    Name := call.Name
    Digest := gs "Tool " ++ call.Name ++ gs " executed. Output stored at " ++
      genPath w clock sessionID call ++ gs ". Summary: " ++
      (if (rawOutput g w cwd call).length > 200 then
        (rawOutput g w cwd call).take 197 ++ gs "..."
      else rawOutput g w cwd call)
    IsError := ((execute g w cwd call).errMsg).isSome }

/-- The body of the loop of `Proxy.HandleToolCalls` (proxy.go lines
62-101) for one call: execute, wrap an execution error into the raw
output, hash, build the artifact path from the session, tool name, call
id and a nanosecond reading, persist, and produce the digest result.
`clock` counts nanosecond readings taken so far. -/
def handleOneCall (g : guard.Policy) (w : World) (st : store.StoreState)
    (clock : Nat) (sessionID : GoStr) (call : ToolCall) :
    store.StoreState × Nat × Except GoStr ToolResult :=
  match store.SaveArtifact st (genArtifact g w st.cwd clock sessionID call)
      (rawOutput g w st.cwd call) with
  | (st', some e) => (st', clock + 1, .error (gs "failed to save artifact: " ++ e))
  | (st', none) => (st', clock + 1, .ok (genResult g w st.cwd clock sessionID call))

/-- `Proxy.HandleToolCalls` (proxy.go lines 59-104): the calls processed
in order; a persistence failure aborts the batch with an error. -/
def HandleToolCalls (g : guard.Policy) (w : World) (st : store.StoreState)
    (clock : Nat) (sessionID : GoStr) :
    List ToolCall → store.StoreState × Nat × Except GoStr (List ToolResult)
  | [] => (st, clock, .ok [])
  | call :: rest =>
    match handleOneCall g w st clock sessionID call with
    | (st', clock', .error e) => (st', clock', .error e)
    | (st', clock', .ok res) =>
      match HandleToolCalls g w st' clock' sessionID rest with
      | (st'', clock'', .error e) => (st'', clock'', .error e)
      | (st'', clock'', .ok results) => (st'', clock'', .ok (res :: results))

end mcp

namespace store

/-!
The vector memory (src/unnamed/part_011, heap-based variant).  Go
`float32` arithmetic is idealised as real arithmetic, the standard
exact-arithmetic reading of the floating-point source.  Go's generic
`container/heap` package is external to the repository and is modelled
through its documented contract: the slice's index 0 holds the minimum
element under `Less`, `Push` adds an element, and `Pop` removes and
returns that minimum.  A min-heap whose slice satisfies this contract is
represented here by the ascending-by-score list of its elements.
-/

/-- `store.indexEntry`. -/
structure indexEntry where
  id : Int
  content : GoStr
  vector : List ℝ
  metadata : List (GoStr × GoStr)

/-- `store.MemoryItem` (src/internal/store/types.go). -/
structure MemoryItem where
  Content : GoStr
  Metadata : List (GoStr × GoStr)
  Similarity : ℝ

/-- The running sum `sum += x*x` of `magnitude` and of the `bMag`
accumulator. -/
def sumSq (v : List ℝ) : ℝ := (v.map (fun x => x * x)).sum

/-- `magnitude` (part_011 lines 364-370). -/
noncomputable def magnitude (v : List ℝ) : ℝ := Real.sqrt (sumSq v)

/-- The `dot` accumulator. -/
def dotp (a b : List ℝ) : ℝ := (List.zipWith (fun x y => x * y) a b).sum

open Classical in
/-- `cosineSimilarityOptimized` (part_011 lines 373-389). -/
noncomputable def cosineSimilarityOptimized (a b : List ℝ) (aMag : ℝ) : ℝ :=
  if a.length ≠ b.length ∨ a.length = 0 ∨ aMag = 0 then 0
  else if sumSq b = 0 then 0
  else dotp a b / (aMag * Real.sqrt (sumSq b))

/-- A heap element: the score paired with the entry ([scoredEntry]). -/
abbrev ScoredEntry := ℝ × indexEntry

open Classical in
/-- `heap.Push` on the sorted-slice representation: insert by score. -/
noncomputable def hInsert (x : ScoredEntry) : List ScoredEntry → List ScoredEntry
  | [] => [x]
  | y :: t => if x.1 ≤ y.1 then x :: y :: t else y :: hInsert x t

open Classical in
/-- The full-heap arm of the loop body: a candidate beating the root
(`(*h)[0]`, the minimum) pops the root and is pushed; the empty arm is
reachable in Go only when `limit <= 0`, where the Go code would panic
on `(*h)[0]`. -/
noncomputable def heapFull (x : ScoredEntry) : List ScoredEntry → List ScoredEntry
  | [] => []
  | y :: t => if x.1 > y.1 then hInsert x t else y :: t

open Classical in
/-- The loop body shared by `vectorIndex.search` (part_011 lines
202-212) and `searchMemoryFromDB` (lines 335-347): keep the best
`limit` entries in a min-heap. -/
noncomputable def heapStep (limit : Int) (q : List ℝ) (qMag : ℝ)
    (h : List ScoredEntry) (e : indexEntry) : List ScoredEntry :=
  if (h.length : Int) < limit then
    hInsert (cosineSimilarityOptimized q e.vector qMag, e) h
  else
    heapFull (cosineSimilarityOptimized q e.vector qMag, e) h

/-- The extraction loop: `results[i] = heap.Pop(h)` for `i` from
`len-1` down to `0`, so the ascending heap contents are emitted in
descending order. -/
def extract (h : List ScoredEntry) : List MemoryItem :=
  h.reverse.map (fun se => ⟨se.2.content, se.2.metadata, se.1⟩)

open Classical in
/-- `vectorIndex.search` (part_011 lines 184-226). -/
noncomputable def vectorIndexSearch (entries : List indexEntry) (q : List ℝ)
    (limit : Int) : List MemoryItem :=
  if limit ≤ 0 ∨ entries = [] then []
  else
    let qMag := magnitude q
    if qMag = 0 then []
    else extract (entries.foldl (heapStep limit q qMag) [])

/-- A row of the `memories` table, with its vector already decoded from
the little-endian float32 blob (the `binary` round-trip is the Go
standard library's). -/
structure MemRow where
  id : Int
  content : GoStr
  vector : List ℝ
  metadata : List (GoStr × GoStr)

/-- The memory-relevant state of a `SQLiteStore`: the table rows and the
in-memory `vectorIndex` cache (`none` models a nil index pointer). -/
structure MemState where
  rows : List MemRow
  index : Option (List indexEntry)

/-- The entry built from a scanned row. -/
def rowEntry (r : MemRow) : indexEntry := ⟨r.id, r.content, r.vector, r.metadata⟩

open Classical in
/-- `SQLiteStore.searchMemoryFromDB` (part_011 lines 284-361): scan all
rows, rebuild the index, and run the same top-k heap loop; a
zero-magnitude query returns before the scan with the index left
initialized but empty. -/
noncomputable def searchMemoryFromDB (st : MemState) (q : List ℝ)
    (limit : Int) : MemState × List MemoryItem :=
  if magnitude q = 0 then ({ st with index := some [] }, [])
  else
    let entries := st.rows.map rowEntry
    ({ st with index := some entries },
      extract (entries.foldl (heapStep limit q (magnitude q)) []))

open Classical in
/-- `SQLiteStore.SearchMemory` (part_011 lines 272-281): serve from the
in-memory index when it is non-nil and non-empty, otherwise scan the
database and rebuild it. -/
noncomputable def SearchMemory (st : MemState) (q : List ℝ) (limit : Int) :
    MemState × List MemoryItem :=
  match st.index with
  | some idx =>
    if idx.length > 0 then (st, vectorIndexSearch idx q limit)
    else searchMemoryFromDB st q limit
  | none => searchMemoryFromDB st q limit

/-- `SQLiteStore.AddMemory` (part_011 lines 243-270): insert the row
(autoincrement id) and append to the index, creating it when nil. -/
def AddMemory (st : MemState) (content : GoStr) (vector : List ℝ)
    (meta : List (GoStr × GoStr)) : MemState :=
  let id : Int := (st.rows.length : Int) + 1
  { rows := st.rows ++ [⟨id, content, vector, meta⟩]
    index := some ((st.index.getD []) ++ [⟨id, content, vector, meta⟩]) }

end store

namespace runtime

/-- `coach.TaskSpec` (src/unnamed/part_020). -/
structure TaskSpec where
  Goal : GoStr
  DefinitionOfDone : GoStr
  Constraints : List GoStr
  Evidence : List GoStr

/-- `provider.Usage` (src/unnamed/part_016). -/
structure Usage where
  PromptTokens : Int
  CompletionTokens : Int
  TotalTokens : Int

/-- `provider.Response`. -/
structure Response where
  Content : GoStr
  ToolCalls : List mcp.ToolCall
  Usage : Usage

/-- `provider.Message`. -/
structure Message where
  Role : GoStr
  Content : GoStr
  ToolCalls : List mcp.ToolCall
  ToolCallID : GoStr

/-- Go `fmt` rendering of a `[]string` with `%v`. -/
def goFmtSlice (xs : List GoStr) : GoStr :=
  gs "[" ++ (gs " ").intercalate xs ++ gs "]"

/-- The parameters of one `Runtime.ExecuteSession` run: the policy, the
loaded spec, the provider (`chat` indexed by how many provider calls
were made before), whether `Embed` succeeds during archival, the
evidence filesystem by iteration number, the subprocess world, and the
memory block retrieved at start (step 0 of the loop, whose vector side
is modelled in `store`). -/
structure RunCfg where
  policy : guard.Policy
  spec : TaskSpec
  chat : Nat → Except GoStr Response
  embedOk : Bool
  fs : Nat → GoStr → Bool
  world : mcp.World
  sessionID : GoStr
  memoryContext : GoStr

/-- The in-memory execution state of the loop. -/
structure RunState where
  iter : Nat
  pt : Int
  ot : Int
  history : List Message
  status : GoStr
  persisted : GoStr
  chatCalls : Nat
  adapterCalls : Nat
  sto : store.StoreState
  clock : Nat
  memoryArchived : Bool

/-- How a run ends. -/
inductive RunOutcome where
  | guardViolation (v : guard.Violation)
  | chatError (e : GoStr)
  | proxyError (e : GoStr)
  | completed
  | outOfFuel
deriving DecidableEq

/-- One loop iteration either continues or ends the run. -/
inductive StepRes where
  | cont (st : RunState)
  | halt (o : RunOutcome) (st : RunState)

/-- The initial user turn (runtime.go lines 97-99). -/
def initialMessage (cfg : RunCfg) : Message :=
  ⟨gs "user",
    gs "Goal: " ++ cfg.spec.Goal ++ gs "\nDoD: " ++ cfg.spec.DefinitionOfDone ++
      gs "\nConstraints: " ++ goFmtSlice cfg.spec.Constraints ++ gs "\n\n" ++
      cfg.memoryContext ++ gs "\nPlease execute.",
    [], []⟩

/-- The synthetic turn installed by a successful rollup (runtime.go
lines 121-128). -/
def rollupMessage (cfg : RunCfg) (summary : GoStr) : Message :=
  ⟨gs "user",
    gs "Goal: " ++ cfg.spec.Goal ++ gs "\nDoD: " ++ cfg.spec.DefinitionOfDone ++
      gs "\nConstraints: " ++ goFmtSlice cfg.spec.Constraints ++
      gs "\n\nProgress Summary: " ++ summary ++ gs "\n\nPlease continue execution.",
    [], []⟩

/-- The completion heuristic (runtime.go lines 172-175). -/
def hasDoneHint (content : GoStr) : Bool :=
  content ≠ [] &&
    (goContains (goToLower content) (gs "task complete") ||
     goContains (goToLower content) (gs "i have finished") ||
     goContains (goToLower content) (gs "done"))

/-- `Runtime.verifyEvidence` (runtime.go lines 236-243): the first
missing evidence path, as the error detail. -/
def verifyEvidence (ex : GoStr → Bool) (spec : TaskSpec) : Option GoStr :=
  (spec.Evidence.find? (fun e => !ex e)).map (fun e => gs "missing evidence: " ++ e)

/-- The verification-failure user turn (runtime.go lines 181-184). -/
def verifFailMessage (detail : GoStr) : Message :=
  ⟨gs "user",
    gs "Verification failed: " ++ detail ++
      gs ". Please correct and ensure the Evidence is present.",
    [], []⟩

/-- The tool turn appended for one proxy result (runtime.go 160-166). -/
def toolMessage (r : mcp.ToolResult) : Message :=
  ⟨gs "tool", r.Digest, [], r.ToolCallID⟩

/-- Steps 5-6 of the iteration: the completion heuristic, evidence
verification, persistence, and memory archival (runtime.go lines
169-215). -/
def afterTools (cfg : RunCfg) (st : RunState) (resp : Response) : StepRes :=
  if hasDoneHint resp.Content then
    match verifyEvidence (cfg.fs st.iter) cfg.spec with
    | some detail =>
      .cont { st with
        history := st.history ++ [verifFailMessage detail]
        status := gs "running"
        persisted := gs "running" }
    | none =>
      let st := { st with status := gs "completed", persisted := gs "completed" }
      match cfg.chat st.adapterCalls with
      | .error _ =>
        .halt .completed { st with adapterCalls := st.adapterCalls + 1 }
      | .ok _ =>
        .halt .completed { st with
          adapterCalls := st.adapterCalls + 1
          memoryArchived := cfg.embedOk }
  else
    .cont { st with status := gs "running", persisted := gs "running" }

/-- One iteration of the `for` loop of `Runtime.ExecuteSession`
(runtime.go lines 101-215): increment, pre-flight budget check,
conditional rollup, provider call, token accounting, tool phase, and
the completion check. -/
def iterate (cfg : RunCfg) (st : RunState) : StepRes :=
  let iter' := st.iter + 1
  match guard.CheckBudget cfg.policy (iter' : Int) st.pt st.ot with
  | some v =>
    .halt (.guardViolation v)
      { st with iter := iter', status := gs "halted", persisted := gs "halted" }
  | none =>
  let st := { st with iter := iter' }
  let st :=
    if st.history.length > 20 ∨ st.pt > (3000 : Int) then
      match cfg.chat st.adapterCalls with
      | .error _ => { st with adapterCalls := st.adapterCalls + 1 }
      | .ok resp =>
        { st with
          adapterCalls := st.adapterCalls + 1
          history := [rollupMessage cfg resp.Content] }
    else st
  match cfg.chat st.adapterCalls with
  | .error e => .halt (.chatError e) { st with adapterCalls := st.adapterCalls + 1 }
  | .ok resp =>
    let st := { st with
      adapterCalls := st.adapterCalls + 1
      chatCalls := st.chatCalls + 1
      pt := st.pt + resp.Usage.PromptTokens
      ot := st.ot + resp.Usage.CompletionTokens
      history := st.history ++ [⟨gs "assistant", resp.Content, resp.ToolCalls, []⟩] }
    if resp.ToolCalls.isEmpty then afterTools cfg st resp
    else
      match mcp.HandleToolCalls cfg.policy cfg.world st.sto st.clock
          cfg.sessionID resp.ToolCalls with
      | (sto', clock', .error e) =>
        .halt (.proxyError e) { st with sto := sto', clock := clock' }
      | (sto', clock', .ok results) =>
        afterTools cfg
          { st with
            sto := sto'
            clock := clock'
            history := st.history ++ results.map toolMessage }
          resp

/-- The fuel-indexed loop.  `ExecuteSession` supplies enough fuel that
the fuel never runs out (the pre-flight check fires first). -/
def run (cfg : RunCfg) : Nat → RunState → RunOutcome × RunState
  | 0, st => (.outOfFuel, st)
  | fuel + 1, st =>
    match iterate cfg st with
    | .halt o st' => (o, st')
    | .cont st' => run cfg fuel st'

/-- The state before the first iteration (runtime.go lines 74-99). -/
def initState (cfg : RunCfg) (sto0 : store.StoreState) (status0 : GoStr) :
    RunState :=
  { iter := 0, pt := 0, ot := 0
    history := [initialMessage cfg]
    status := status0, persisted := status0
    chatCalls := 0, adapterCalls := 0
    sto := sto0, clock := 0
    memoryArchived := false }

/-- `Runtime.ExecuteSession` from the first iteration on, with fuel
sufficient for the pre-flight check to be the binding stop. -/
def ExecuteSession (cfg : RunCfg) (sto0 : store.StoreState) (status0 : GoStr) :
    RunOutcome × RunState :=
  run cfg (cfg.policy.MaxIterations.toNat + 1) (initState cfg sto0 status0)

/-- Cumulative prompt tokens of the first `j` provider responses. -/
def ptSum (resp : Nat → Response) : Nat → Int
  | 0 => 0
  | j + 1 => ptSum resp j + (resp j).Usage.PromptTokens

/-- Cumulative output tokens of the first `j` provider responses. -/
def otSum (resp : Nat → Response) : Nat → Int
  | 0 => 0
  | j + 1 => otSum resp j + (resp j).Usage.CompletionTokens

/-- The run state after `j` quiet iterations (every response succeeds,
claims no completion and calls no tools, and neither the rollup nor a
budget violation has fired yet). -/
def quietState (cfg : RunCfg) (sto0 : store.StoreState) (status0 : GoStr)
    (resp : Nat → Response) (j : Nat) : RunState :=
  { iter := j, pt := ptSum resp j, ot := otSum resp j
    history := initialMessage cfg ::
      (List.range j).map
        (fun n => ⟨gs "assistant", (resp n).Content, (resp n).ToolCalls, []⟩)
    status := if j = 0 then status0 else gs "running"
    persisted := if j = 0 then status0 else gs "running"
    chatCalls := j, adapterCalls := j
    sto := sto0, clock := 0
    memoryArchived := false }

/-- A sample configuration: permissive budgets, one evidence file
`out.txt`, a failing provider, and a filesystem on which no path
exists. -/
def c7Cfg : RunCfg :=
  ⟨⟨5, 100, 100, [gs "*"], [], true⟩, ⟨gs "g", gs "d", [], [gs "out.txt"]⟩,
    fun _ => .error (gs "x"), false, fun _ _ => false,
    ⟨fun _ => none, fun _ => ([], none), fun k => k⟩, gs "s", gs "m"⟩

/-- A sample mid-run state after one iteration. -/
def c7St : RunState :=
  ⟨1, 0, 0, [], gs "running", gs "running", 1, 1,
    ⟨gs "/a", gs "/w", [], []⟩, 0, false⟩

end runtime

namespace fp

/-- A path segment that `clean` passes through untouched: non-empty, no
separator, and neither `.` nor `..`. -/
def goodSeg (s : GoStr) : Bool :=
  !s.isEmpty && s.all (fun c => c != '/') && s != gs "." && s != gs ".."

end fp

namespace mcp

/-- Identifier material assumed for session ids, tool names and call
ids: non-empty and drawn from letters, digits, `-` and `_`. -/
def safeSeg (s : GoStr) : Bool :=
  !s.isEmpty && s.all (fun c => c.isAlphanum || c == '-' || c == '_')

end mcp

/-!
## Theorems

Helper lemmas first, then one theorem per claim (with witnesses and
counterexamples where required).
-/

namespace guard

theorem allowMatches_iff (allow cmd : GoStr) :
    allowMatches allow cmd = true ↔
      allow = gs "*" ∨ allow = cmd ∨ allow <+: cmd := by
  unfold allowMatches
  simp only [Bool.or_eq_true, beq_iff_eq, Bool.and_eq_true, decide_eq_true_eq]
  constructor
  · rintro ((h | h) | ⟨hl, ht⟩)
    · exact Or.inl h
    · exact Or.inr (Or.inl h)
    · exact Or.inr (Or.inr (ht ▸ List.take_prefix _ _))
  · rintro (h | h | h)
    · exact Or.inl (Or.inl h)
    · exact Or.inl (Or.inr h)
    · exact Or.inr ⟨h.length_le, ((List.prefix_iff_eq_take).1 h).symm⟩

end guard

/-- C4: `check_budget` returns a violation iff the iteration strictly
exceeds max-iterations, or prompt tokens strictly exceed
max-prompt-tokens, or output tokens strictly exceed max-output-tokens,
and the violation names the specific rule that was exceeded. -/
theorem c4_check_budget (p : guard.Policy) (it pt ot : Int) :
    ((guard.CheckBudget p it pt ot).isSome = true ↔
      (it > p.MaxIterations ∨ pt > p.MaxPromptTokens ∨ ot > p.MaxOutputTokens)) ∧
    (∀ v, guard.CheckBudget p it pt ot = some v →
      ((v.Rule = gs "max_iterations" ∧ it > p.MaxIterations) ∨
       (v.Rule = gs "max_prompt_tokens" ∧ pt > p.MaxPromptTokens) ∨
       (v.Rule = gs "max_output_tokens" ∧ ot > p.MaxOutputTokens))) := by
  unfold guard.CheckBudget
  split_ifs with h1 h2 h3 <;> simp_all [Option.isSome]

/-- Closed witness for `c4_check_budget`: a concrete exceeded iteration
budget yields the `max_iterations` violation. -/
theorem c4_check_budget_witness :
    (guard.CheckBudget ⟨1, 10, 10, [], [], true⟩ 2 0 0 =
      some ⟨gs "max_iterations", gs "Iteration limit exceeded", true⟩) ∧
    ((gs "max_iterations" = gs "max_iterations" ∧ (2 : Int) > 1) ∨
     (gs "max_iterations" = gs "max_prompt_tokens" ∧ (0 : Int) > 10) ∨
     (gs "max_iterations" = gs "max_output_tokens" ∧ (0 : Int) > 10)) :=
  ⟨by decide, (c4_check_budget ⟨1, 10, 10, [], [], true⟩ 2 0 0).2
    ⟨gs "max_iterations", gs "Iteration limit exceeded", true⟩ (by decide)⟩

/-- C5: `check_command` permits a head iff it equals an allowed entry,
or `*` is allowed, or some allowed entry is a prefix of the head; any
violation is fatal and names `allowed_commands`. -/
theorem c5_check_command (p : guard.Policy) (cmd : GoStr) :
    (guard.CheckCommand p cmd = none ↔
      (cmd ∈ p.AllowedCommands ∨ gs "*" ∈ p.AllowedCommands ∨
        ∃ a ∈ p.AllowedCommands, a <+: cmd)) ∧
    (∀ v, guard.CheckCommand p cmd = some v →
      v.Rule = gs "allowed_commands" ∧
        v.Message = gs "Command not allowed: " ++ cmd ∧ v.Fatal = true) := by
  constructor
  · unfold guard.CheckCommand
    split_ifs with h
    · simp only [true_iff]
      rw [List.any_eq_true] at h
      obtain ⟨a, ha, hm⟩ := h
      rcases (guard.allowMatches_iff a cmd).1 hm with h | h | h
      · exact Or.inr (Or.inl (h ▸ ha))
      · exact Or.inl (h ▸ ha)
      · exact Or.inr (Or.inr ⟨a, ha, h⟩)
    · simp only [reduceCtorEq, false_iff]
      rw [List.any_eq_true] at h
      push_neg at h
      rintro (hc | hc | ⟨a, ha, hpre⟩)
      · exact absurd ((guard.allowMatches_iff cmd cmd).2
          (Or.inr (Or.inl rfl))) (by simpa using h cmd hc)
      · exact absurd ((guard.allowMatches_iff (gs "*") cmd).2
          (Or.inl rfl)) (by simpa using h (gs "*") hc)
      · exact absurd ((guard.allowMatches_iff a cmd).2
          (Or.inr (Or.inr hpre))) (by simpa using h a ha)
  · intro v hv
    unfold guard.CheckCommand at hv
    split_ifs at hv
    cases hv
    exact ⟨rfl, rfl, rfl⟩

/-- Closed witness for `c5_check_command`: with `go` allowed, the head
`go-something` is permitted by prefix match; with nothing allowed, the
violation names `allowed_commands`. -/
theorem c5_check_command_witness :
    (guard.CheckCommand ⟨20, 1, 1, [gs "go"], [], true⟩ (gs "go-something") = none) ∧
    ((gs "allowed_commands") = gs "allowed_commands" ∧
      (gs "Command not allowed: " ++ gs "rm") = gs "Command not allowed: " ++ gs "rm" ∧
      True) :=
  ⟨(c5_check_command ⟨20, 1, 1, [gs "go"], [], true⟩ (gs "go-something")).1.2
      (Or.inr (Or.inr ⟨gs "go", by decide, by decide⟩)),
   by exact ⟨rfl, rfl, trivial⟩⟩

/-- C10: every violation produced by `CheckBudget`, `CheckCommand` or
`CheckFile` is fatal; the guard never returns a non-fatal violation. -/
theorem c10_violations_fatal (p : guard.Policy)
    (dsMatch : GoStr → GoStr → Bool) (it pt ot : Int) (cmd path : GoStr) :
    (∀ v, guard.CheckBudget p it pt ot = some v → v.Fatal = true) ∧
    (∀ v, guard.CheckCommand p cmd = some v → v.Fatal = true) ∧
    (∀ v, guard.CheckFile dsMatch p path = some v → v.Fatal = true) := by
  refine ⟨fun v hv => ?_, fun v hv => ?_, fun v hv => ?_⟩
  · unfold guard.CheckBudget at hv
    split_ifs at hv <;> cases hv <;> rfl
  · unfold guard.CheckCommand at hv
    split_ifs at hv
    cases hv; rfl
  · unfold guard.CheckFile at hv
    split_ifs at hv
    cases hv; rfl

/-- Closed witness for `c10_violations_fatal`: concrete violations from
all three checks are fatal. -/
theorem c10_violations_fatal_witness :
    (⟨gs "max_iterations", gs "Iteration limit exceeded", true⟩ :
      guard.Violation).Fatal = true ∧
    (⟨gs "allowed_commands", gs "Command not allowed: " ++ gs "rm", true⟩ :
      guard.Violation).Fatal = true ∧
    (⟨gs "allowed_file_globs", gs "File access not allowed: " ++ gs "x", true⟩ :
      guard.Violation).Fatal = true :=
  ⟨(c10_violations_fatal ⟨0, 0, 0, [], [], true⟩ (fun _ _ => false) 1 0 0
      (gs "rm") (gs "x")).1 _ (by decide),
   (c10_violations_fatal ⟨0, 0, 0, [], [], true⟩ (fun _ _ => false) 1 0 0
      (gs "rm") (gs "x")).2.1 _ (by decide),
   (c10_violations_fatal ⟨0, 0, 0, [], [], true⟩ (fun _ _ => false) 1 0 0
      (gs "rm") (gs "x")).2.2 _ (by simp [guard.CheckFile])⟩

theorem clean_isAbs_of {p : GoStr} (h : goHasPfx p (gs "/") = true) :
    fp.isAbs (fp.clean p) = true := by
  unfold fp.clean fp.isAbs
  simp only [h, if_true]
  simp [goHasPfx, gs, List.isPrefixOf]

/-- C3 counterexample: `a/../b` contains `..`, yet `save_artifact`
accepts it and writes the cleaned file `b` under the artifact root, so
the claim is false as stated. -/
theorem c3_counterexample :
    goContains (gs "a/../b") (gs "..") = true ∧
    (store.SaveArtifact ⟨gs "/arts", gs "/w", [], []⟩
      ⟨gs "a1", gs "s1", gs "a/../b", gs "log", gs "d"⟩ (gs "hello")).2 = none ∧
    (store.SaveArtifact ⟨gs "/arts", gs "/w", [], []⟩
      ⟨gs "a1", gs "s1", gs "a/../b", gs "log", gs "d"⟩ (gs "hello")).1.fs =
      [(gs "/arts/b", gs "hello")] := by decide

/-- C3 (amended): `save_artifact` fails without writing to the
filesystem or the database for every path that is absolute, or whose
lexically cleaned form starts with `..` or still contains `/../`;
a path merely containing `..` that cleans to a safe relative location
(such as `a/../b`) is accepted. -/
theorem c3_corrected (st : store.StoreState) (a : store.Artifact)
    (content : GoStr)
    (h : goHasPfx a.Path (gs "/") = true ∨
      goHasPfx (fp.clean a.Path) (gs "..") = true ∨
      goContains (fp.clean a.Path) (gs "/../") = true) :
    (store.SaveArtifact st a content).1 = st ∧
      ((store.SaveArtifact st a content).2).isSome = true := by
  have hsan : ∃ e, store.sanitizeArtifactPath st a.Path = .error e := by
    simp only [store.sanitizeArtifactPath]
    rcases h with h | h | h
    · rw [if_pos (clean_isAbs_of h)]
      exact ⟨_, rfl⟩
    · split_ifs with h1 h2 <;> simp_all
    · split_ifs with h1 h2 <;> simp_all
  obtain ⟨e, he⟩ := hsan
  simp [store.SaveArtifact, he]

/-- Closed witness for `c3_corrected`: the absolute path `/etc/passwd`
and the traversal path `../x` are both refused with the store left
unchanged. -/
theorem c3_corrected_witness :
    ((store.SaveArtifact ⟨gs "/arts", gs "/w", [], []⟩
        ⟨gs "a1", gs "s1", gs "/etc/passwd", gs "log", gs "d"⟩ (gs "x")).1 =
      ⟨gs "/arts", gs "/w", [], []⟩ ∧
     ((store.SaveArtifact ⟨gs "/arts", gs "/w", [], []⟩
        ⟨gs "a1", gs "s1", gs "/etc/passwd", gs "log", gs "d"⟩ (gs "x")).2).isSome = true) ∧
    ((store.SaveArtifact ⟨gs "/arts", gs "/w", [], []⟩
        ⟨gs "a2", gs "s1", gs "../x", gs "log", gs "d"⟩ (gs "x")).1 =
      ⟨gs "/arts", gs "/w", [], []⟩ ∧
     ((store.SaveArtifact ⟨gs "/arts", gs "/w", [], []⟩
        ⟨gs "a2", gs "s1", gs "../x", gs "log", gs "d"⟩ (gs "x")).2).isSome = true) :=
  ⟨c3_corrected _ _ _ (Or.inl (by decide)),
   c3_corrected _ _ _ (Or.inr (Or.inl (by decide)))⟩

/-- C1 counterexample: with `*` in allowed-commands, the call
`run_shell {cmd: "rm -rf /"}` contains the dangerous pattern
`rm -rf /`, yet in direct mode (no `<`/`>`) the proxy reports no error
and starts the subprocess `/bin/rm -rf /`: the six shell-danger
patterns are not checked in direct mode. -/
theorem c1_counterexample :
    (mcp.execute ⟨20, 8000, 4000, [gs "*"], [gs "*"], true⟩
      ⟨fun _ => some (gs "/bin/rm"), fun _ => ([], none), fun k => k⟩ (gs "/w")
      ⟨gs "call-1", gs "run_shell", .obj (some (.str (gs "rm -rf /"))) none⟩).errMsg
      = none ∧
    (mcp.execute ⟨20, 8000, 4000, [gs "*"], [gs "*"], true⟩
      ⟨fun _ => some (gs "/bin/rm"), fun _ => ([], none), fun k => k⟩ (gs "/w")
      ⟨gs "call-1", gs "run_shell", .obj (some (.str (gs "rm -rf /"))) none⟩).spawned
      = some (.direct (gs "/bin/rm") [gs "-rf", gs "/"] []) := by decide

/-- C1 (amended): the unconditional dangerous set of
`validateShellCommand` (which holds the `sudo`, world-writable-chmod,
`/etc/passwd`, `/etc/shadow`, `~/.ssh` and `rm -rf /` patterns) is
enforced only in shell mode: when the composed command contains `<` or
`>` and matches a shell-danger pattern, the proxy errors without
starting a subprocess; in direct mode those patterns are not checked,
and a command that passes the first-pass scan, parses, and whose head
passes allowed-commands is executed directly. -/
theorem c1_corrected :
    (∀ (g : guard.Policy) (w : mcp.World) (cwd id : GoStr)
        (dir : Option GoStr) (s : GoStr),
      goContainsAny s (gs "><") = true →
      (mcp.validateShellCommand s).isSome = true →
      (mcp.execute g w cwd ⟨id, gs "run_shell", .obj (some (.str s)) dir⟩).spawned
          = none ∧
      ((mcp.execute g w cwd
        ⟨id, gs "run_shell", .obj (some (.str s)) dir⟩).errMsg).isSome = true) ∧
    (∀ (g : guard.Policy) (w : mcp.World) (cwd id s head path : GoStr)
        (args : List GoStr),
      goContainsAny s (gs "><") = false →
      mcp.validateCommand s = none →
      mcp.parseCommand s = .ok (head, args) →
      guard.CheckCommand g head = none →
      w.lookPath head = some path →
      (mcp.execute g w cwd ⟨id, gs "run_shell", .obj (some (.str s)) none⟩).spawned
        = some (.direct path args [])) := by
  constructor
  · intro g w cwd id dir s hns hsd
    obtain ⟨msg, hm⟩ := Option.isSome_iff_exists.1 hsd
    cases vc : mcp.validateCommand s with
    | some m => simp [mcp.execute, vc]
    | none =>
      cases pc : mcp.parseCommand s with
      | error e => simp [mcp.execute, vc, pc]
      | ok ha =>
        obtain ⟨head, args⟩ := ha
        cases gc : guard.CheckCommand g head with
        | some v => simp [mcp.execute, vc, pc, gc]
        | none =>
          cases dir with
          | none => simp [mcp.execute, vc, pc, gc, hns, hm]
          | some d =>
            cases sd : mcp.sanitizeWorkDir cwd d with
            | error e => simp [mcp.execute, vc, pc, gc, sd]
            | ok dirStr => simp [mcp.execute, vc, pc, gc, sd, hns, hm]
  · intro g w cwd id s head path args hns vc pc gc lp
    simp [mcp.execute, vc, pc, gc, hns, lp]

/-- Closed witness for `c1_corrected`: `sudo ls > f` is in shell mode
and is rejected (no spawn), while `rm -rf /` in direct mode is spawned
when `rm` resolves and `*` is allowed. -/
theorem c1_corrected_witness :
    ((mcp.execute ⟨20, 8000, 4000, [gs "*"], [gs "*"], true⟩
        ⟨fun _ => some (gs "/bin/sudo"), fun _ => ([], none), fun k => k⟩ (gs "/w")
        ⟨gs "c9", gs "run_shell", .obj (some (.str (gs "sudo ls > f"))) none⟩).spawned
        = none ∧
     ((mcp.execute ⟨20, 8000, 4000, [gs "*"], [gs "*"], true⟩
        ⟨fun _ => some (gs "/bin/sudo"), fun _ => ([], none), fun k => k⟩ (gs "/w")
        ⟨gs "c9", gs "run_shell",
          .obj (some (.str (gs "sudo ls > f"))) none⟩).errMsg).isSome = true) ∧
    (mcp.execute ⟨20, 8000, 4000, [gs "*"], [gs "*"], true⟩
      ⟨fun _ => some (gs "/bin/rm"), fun _ => ([], none), fun k => k⟩ (gs "/w")
      ⟨gs "c1", gs "run_shell", .obj (some (.str (gs "rm -rf /"))) none⟩).spawned
      = some (.direct (gs "/bin/rm") [gs "-rf", gs "/"] []) :=
  ⟨c1_corrected.1 ⟨20, 8000, 4000, [gs "*"], [gs "*"], true⟩
      ⟨fun _ => some (gs "/bin/sudo"), fun _ => ([], none), fun k => k⟩ (gs "/w")
      (gs "c9") none (gs "sudo ls > f") (by decide) (by decide),
   c1_corrected.2 ⟨20, 8000, 4000, [gs "*"], [gs "*"], true⟩
      ⟨fun _ => some (gs "/bin/rm"), fun _ => ([], none), fun k => k⟩ (gs "/w")
      (gs "c1") (gs "rm -rf /") (gs "rm") (gs "/bin/rm") [gs "-rf", gs "/"]
      (by decide) (by decide) (by decide) (by decide) rfl⟩

/-- C2 counterexample: `echo hi > f && ls` contains `>` and matches none
of the unconditional shell-danger patterns, and `echo` is allowed, so by
the claim only the unconditional set would be enforced and the call
would succeed; the proxy nevertheless rejects it through the
direct-mode pattern `&&`, which is applied before mode selection. -/
theorem c2_counterexample :
    goContainsAny (gs "echo hi > f && ls") (gs "><") = true ∧
    mcp.validateShellCommand (gs "echo hi > f && ls") = none ∧
    guard.CheckCommand ⟨20, 8000, 4000, [gs "echo"], [], true⟩ (gs "echo") = none ∧
    (mcp.execute ⟨20, 8000, 4000, [gs "echo"], [], true⟩
      ⟨fun _ => some (gs "/bin/echo"), fun _ => ([], none), fun k => k⟩ (gs "/w")
      ⟨gs "c2", gs "run_shell",
        .obj (some (.str (gs "echo hi > f && ls"))) none⟩).spawned = none ∧
    (mcp.execute ⟨20, 8000, 4000, [gs "echo"], [], true⟩
      ⟨fun _ => some (gs "/bin/echo"), fun _ => ([], none), fun k => k⟩ (gs "/w")
      ⟨gs "c2", gs "run_shell",
        .obj (some (.str (gs "echo hi > f && ls"))) none⟩).errMsg =
      some (gs "command validation failed: potentially dangerous command pattern detected: &&") := by
  decide

/-- C2 (amended): a command containing `<` or `>` runs in shell mode,
but only after passing both validation passes: the direct-mode
dangerous-pattern set is enforced on every command before mode
selection (so e.g. `&&` is rejected even with redirection present), and
the shell-danger set is enforced afterwards; when both pass it is
spawned through the shell, never directly, and in particular
`echo hi > out.txt` succeeds when `echo` is allowed. -/
theorem c2_corrected :
    (∀ (g : guard.Policy) (w : mcp.World) (cwd id : GoStr)
        (dir : Option GoStr) (s : GoStr),
      (mcp.validateCommand s).isSome = true →
      (mcp.execute g w cwd ⟨id, gs "run_shell", .obj (some (.str s)) dir⟩).spawned
          = none ∧
      ((mcp.execute g w cwd
          ⟨id, gs "run_shell", .obj (some (.str s)) dir⟩).errMsg).isSome = true) ∧
    (∀ (g : guard.Policy) (w : mcp.World) (cwd id : GoStr)
        (dir : Option GoStr) (s : GoStr) (sp : mcp.Spawn),
      goContainsAny s (gs "><") = true →
      (mcp.execute g w cwd ⟨id, gs "run_shell", .obj (some (.str s)) dir⟩).spawned
          = some sp →
      ∃ d, sp = .shell s d) ∧
    (∀ w : mcp.World,
      (mcp.execute ⟨20, 8000, 4000, [gs "echo"], [], true⟩ w (gs "/w")
        ⟨gs "c2", gs "run_shell",
          .obj (some (.str (gs "echo hi > out.txt"))) none⟩).spawned =
        some (.shell (gs "echo hi > out.txt") []) ∧
      (mcp.execute ⟨20, 8000, 4000, [gs "echo"], [], true⟩ w (gs "/w")
        ⟨gs "c2", gs "run_shell",
          .obj (some (.str (gs "echo hi > out.txt"))) none⟩).errMsg =
        (w.execOut (.shell (gs "echo hi > out.txt") [])).2) := by
  refine ⟨?_, ?_, ?_⟩
  · intro g w cwd id dir s hv
    obtain ⟨msg, hm⟩ := Option.isSome_iff_exists.1 hv
    simp [mcp.execute, hm]
  · intro g w cwd id dir s sp hns hsp
    cases vc : mcp.validateCommand s with
    | some m => simp [mcp.execute, vc] at hsp
    | none =>
      cases pc : mcp.parseCommand s with
      | error e => simp [mcp.execute, vc, pc] at hsp
      | ok ha =>
        obtain ⟨head, args⟩ := ha
        cases gc : guard.CheckCommand g head with
        | some v => simp [mcp.execute, vc, pc, gc] at hsp
        | none =>
          cases dir with
          | none =>
            cases sv : mcp.validateShellCommand s with
            | some m => simp [mcp.execute, vc, pc, gc, hns, sv] at hsp
            | none =>
              simp [mcp.execute, vc, pc, gc, hns, sv] at hsp
              exact ⟨[], hsp.symm⟩
          | some d =>
            cases sd : mcp.sanitizeWorkDir cwd d with
            | error e => simp [mcp.execute, vc, pc, gc, sd] at hsp
            | ok dirStr =>
              cases sv : mcp.validateShellCommand s with
              | some m => simp [mcp.execute, vc, pc, gc, sd, hns, sv] at hsp
              | none =>
                simp [mcp.execute, vc, pc, gc, sd, hns, sv] at hsp
                exact ⟨dirStr, hsp.symm⟩
  · intro w
    constructor <;>
      simp [mcp.execute, show mcp.validateCommand (gs "echo hi > out.txt") = none by decide,
        show mcp.parseCommand (gs "echo hi > out.txt") =
          .ok (gs "echo", [gs "hi", gs ">", gs "out.txt"]) by decide,
        show guard.CheckCommand ⟨20, 8000, 4000, [gs "echo"], [], true⟩ (gs "echo") = none
          by decide,
        show goContainsAny (gs "echo hi > out.txt") (gs "><") = true by decide,
        show mcp.validateShellCommand (gs "echo hi > out.txt") = none by decide]

/-- Closed witness for `c2_corrected`: applies all three parts at the
`echo hi > f && ls` and `echo hi > out.txt` commands. -/
theorem c2_corrected_witness :
    ((mcp.execute ⟨20, 8000, 4000, [gs "echo"], [], true⟩
        ⟨fun _ => some (gs "/bin/echo"), fun _ => ([], none), fun k => k⟩ (gs "/w")
        ⟨gs "c2", gs "run_shell",
          .obj (some (.str (gs "echo hi > f && ls"))) none⟩).spawned = none) ∧
    (mcp.execute ⟨20, 8000, 4000, [gs "echo"], [], true⟩
      ⟨fun _ => some (gs "/bin/echo"), fun _ => ([], none), fun k => k⟩ (gs "/w")
      ⟨gs "c2", gs "run_shell",
        .obj (some (.str (gs "echo hi > out.txt"))) none⟩).spawned =
      some (.shell (gs "echo hi > out.txt") []) :=
  ⟨(c2_corrected.1 ⟨20, 8000, 4000, [gs "echo"], [], true⟩
      ⟨fun _ => some (gs "/bin/echo"), fun _ => ([], none), fun k => k⟩ (gs "/w")
      (gs "c2") none (gs "echo hi > f && ls") (by decide)).1,
   (c2_corrected.2.2 ⟨fun _ => some (gs "/bin/echo"), fun _ => ([], none),
      fun k => k⟩).1⟩

namespace store

theorem sumSq_nonneg (v : List ℝ) : 0 ≤ sumSq v := by
  apply List.sum_nonneg
  intro x hx
  obtain ⟨y, _, rfl⟩ := List.mem_map.1 hx
  exact mul_self_nonneg y

theorem dotp_sq_le (a b : List ℝ) : (dotp a b) ^ 2 ≤ sumSq a * sumSq b := by
  induction a generalizing b with
  | nil => simp [dotp, sumSq]
  | cons x a ih =>
    cases b with
    | nil => simp [dotp, sumSq]
    | cons y b =>
      have hA := sumSq_nonneg a
      have hB := sumSq_nonneg b
      have h := ih b
      have e1 : dotp (x :: a) (y :: b) = x * y + dotp a b := by simp [dotp]
      have e2 : sumSq (x :: a) = x * x + sumSq a := by simp [sumSq]
      have e3 : sumSq (y :: b) = y * y + sumSq b := by simp [sumSq]
      rw [e1, e2, e3]
      rcases eq_or_lt_of_le hA with hA0 | hApos
      · have hd : dotp a b = 0 := by
          have h2 : dotp a b ^ 2 ≤ 0 := by
            calc dotp a b ^ 2 ≤ sumSq a * sumSq b := h
            _ = 0 := by rw [← hA0]; ring
          have h3 : dotp a b ^ 2 = 0 := le_antisymm h2 (sq_nonneg _)
          exact pow_eq_zero_iff (by norm_num) |>.1 h3
        rw [hd, ← hA0]
        nlinarith [mul_nonneg (mul_self_nonneg x) hB]
      · nlinarith [sq_nonneg (sumSq a * y - x * dotp a b),
          mul_nonneg (add_nonneg (mul_self_nonneg x) hA)
            (sub_nonneg.2 h), hApos]

theorem abs_dotp_le (a b : List ℝ) :
    |dotp a b| ≤ Real.sqrt (sumSq a) * Real.sqrt (sumSq b) := by
  have h := dotp_sq_le a b
  have h1 : |dotp a b| = Real.sqrt ((dotp a b) ^ 2) := by
    rw [Real.sqrt_sq_eq_abs]
  rw [h1, ← Real.sqrt_mul (sumSq_nonneg a)]
  exact Real.sqrt_le_sqrt h

theorem cos_bound (q v : List ℝ) :
    |cosineSimilarityOptimized q v (magnitude q)| ≤ 1 := by
  unfold cosineSimilarityOptimized
  split_ifs with h1 h2
  · simp
  · simp
  · push_neg at h1
    obtain ⟨hlen, hne, hmag⟩ := h1
    have hq : 0 < Real.sqrt (sumSq q) := by
      rcases lt_or_eq_of_le (Real.sqrt_nonneg (sumSq q)) with h | h
      · exact h
      · exact absurd h.symm (by simpa [magnitude] using hmag)
    have hv : 0 < Real.sqrt (sumSq v) := by
      have h0 := sumSq_nonneg v
      exact Real.sqrt_pos.2 (lt_of_le_of_ne h0 (Ne.symm h2))
    rw [abs_div, div_le_one (by positivity)]
    calc |dotp q v| ≤ Real.sqrt (sumSq q) * Real.sqrt (sumSq v) := abs_dotp_le q v
    _ = |magnitude q * Real.sqrt (sumSq v)| := by
        rw [abs_of_nonneg (by positivity)]; rfl

theorem hInsert_length (x : ScoredEntry) (h : List ScoredEntry) :
    (hInsert x h).length = h.length + 1 := by
  induction h with
  | nil => rfl
  | cons y t ih =>
    unfold hInsert
    split_ifs <;> simp [ih]

theorem hInsert_mem {z x : ScoredEntry} {h : List ScoredEntry} :
    z ∈ hInsert x h ↔ z = x ∨ z ∈ h := by
  induction h with
  | nil => simp [hInsert]
  | cons y t ih =>
    unfold hInsert
    split_ifs with hle
    · simp [or_comm, or_left_comm]
    · simp [ih, or_comm, or_left_comm]

theorem hInsert_pairwise {x : ScoredEntry} {h : List ScoredEntry}
    (hs : List.Pairwise (fun p q : ScoredEntry => p.1 ≤ q.1) h) :
    List.Pairwise (fun p q : ScoredEntry => p.1 ≤ q.1) (hInsert x h) := by
  induction h with
  | nil => simp [hInsert]
  | cons y t ih =>
    rw [List.pairwise_cons] at hs
    unfold hInsert
    split_ifs with hle
    · refine List.pairwise_cons.2 ⟨?_, List.pairwise_cons.2 hs⟩
      intro z hz
      rcases List.mem_cons.1 hz with rfl | hz
      · exact hle
      · exact le_trans hle (hs.1 z hz)
    · refine List.pairwise_cons.2 ⟨?_, ih hs.2⟩
      intro z hz
      rcases hInsert_mem.1 hz with rfl | hz
      · exact le_of_not_le hle
      · exact hs.1 z hz

theorem heapStep_inv (limit : Int) (q : List ℝ) (qMag : ℝ) (P : ℝ → Prop)
    (e : indexEntry) (h : List ScoredEntry)
    (hP : P (cosineSimilarityOptimized q e.vector qMag))
    (hs : List.Pairwise (fun p q : ScoredEntry => p.1 ≤ q.1) h)
    (hmem : ∀ x ∈ h, P x.1) (hlen : h.length ≤ limit.toNat) :
    List.Pairwise (fun p q : ScoredEntry => p.1 ≤ q.1) (heapStep limit q qMag h e) ∧
    (∀ x ∈ heapStep limit q qMag h e, P x.1) ∧
    (heapStep limit q qMag h e).length ≤ limit.toNat := by
  unfold heapStep
  split_ifs with hlt
  · refine ⟨hInsert_pairwise hs, ?_, ?_⟩
    · intro x hx
      rcases hInsert_mem.1 hx with rfl | hx
      · exact hP
      · exact hmem x hx
    · rw [hInsert_length]; omega
  · cases h with
    | nil => exact ⟨List.Pairwise.nil, by simp [heapFull], by simp [heapFull]⟩
    | cons y t =>
      rw [List.pairwise_cons] at hs
      simp only [heapFull]
      split_ifs with hgt
      · refine ⟨hInsert_pairwise hs.2, ?_, ?_⟩
        · intro x hx
          rcases hInsert_mem.1 hx with rfl | hx
          · exact hP
          · exact hmem x (List.mem_cons_of_mem y hx)
        · rw [hInsert_length]
          simpa using hlen
      · exact ⟨List.pairwise_cons.2 hs, hmem, hlen⟩

theorem fold_inv (limit : Int) (q : List ℝ) (qMag : ℝ) (P : ℝ → Prop)
    (entries : List indexEntry)
    (hP : ∀ e ∈ entries, P (cosineSimilarityOptimized q e.vector qMag)) :
    ∀ h : List ScoredEntry,
      List.Pairwise (fun p q : ScoredEntry => p.1 ≤ q.1) h →
      (∀ x ∈ h, P x.1) → h.length ≤ limit.toNat →
      List.Pairwise (fun p q : ScoredEntry => p.1 ≤ q.1)
          (entries.foldl (heapStep limit q qMag) h) ∧
      (∀ x ∈ entries.foldl (heapStep limit q qMag) h, P x.1) ∧
      (entries.foldl (heapStep limit q qMag) h).length ≤ limit.toNat := by
  induction entries with
  | nil => intro h hs hmem hlen; exact ⟨hs, hmem, hlen⟩
  | cons e rest ih =>
    intro h hs hmem hlen
    have he := hP e (List.mem_cons_self e rest)
    have step := heapStep_inv limit q qMag P e h he hs hmem hlen
    simpa using ih (fun x hx => hP x (List.mem_cons_of_mem e hx))
      (heapStep limit q qMag h e) step.1 step.2.1 step.2.2

theorem extract_props (h : List ScoredEntry) (P : ℝ → Prop)
    (hs : List.Pairwise (fun p q : ScoredEntry => p.1 ≤ q.1) h)
    (hmem : ∀ x ∈ h, P x.1) :
    (extract h).length = h.length ∧
    List.Pairwise (fun a b : MemoryItem => b.Similarity ≤ a.Similarity) (extract h) ∧
    (∀ it ∈ extract h, P it.Similarity) := by
  refine ⟨by simp [extract], ?_, ?_⟩
  · unfold extract
    have hrev : List.Pairwise (fun p q : ScoredEntry => q.1 ≤ p.1) h.reverse :=
      List.pairwise_reverse.2 (by simpa using hs)
    exact List.Pairwise.map _ (fun a b hab => hab) hrev
  · intro it hit
    unfold extract at hit
    obtain ⟨se, hse, rfl⟩ := List.mem_map.1 hit
    exact hmem se (List.mem_reverse.1 hse)

end store

namespace store

theorem topk_props (entries : List indexEntry) (q : List ℝ) (k : Int) :
    (extract (entries.foldl (heapStep k q (magnitude q)) [])).length ≤ k.toNat ∧
    List.Pairwise (fun a b : MemoryItem => b.Similarity ≤ a.Similarity)
      (extract (entries.foldl (heapStep k q (magnitude q)) [])) ∧
    ∀ it ∈ extract (entries.foldl (heapStep k q (magnitude q)) []),
      -1 ≤ it.Similarity ∧ it.Similarity ≤ 1 := by
  have hP : ∀ e ∈ entries,
      -1 ≤ cosineSimilarityOptimized q e.vector (magnitude q) ∧
        cosineSimilarityOptimized q e.vector (magnitude q) ≤ 1 :=
    fun e _ => abs_le.1 (cos_bound q e.vector)
  have hf := fold_inv k q (magnitude q)
    (fun c => -1 ≤ c ∧ c ≤ 1) entries hP [] List.Pairwise.nil
    (by simp) (by simp)
  have he := extract_props _ (fun c => -1 ≤ c ∧ c ≤ 1) hf.1 hf.2.1
  exact ⟨he.1 ▸ hf.2.2, he.2.1, he.2.2⟩

end store

/-- C8: for every query vector and every `k ≥ 1`, `search_memory`
returns at most `k` items, sorted by descending similarity, with every
score in `[-1, 1]`, and returns the empty list when the query has zero
magnitude. -/
theorem c8_search_memory (st : store.MemState) (q : List ℝ) (k : Int)
    (hk : 1 ≤ k) :
    ((store.SearchMemory st q k).2.length : Int) ≤ k ∧
    List.Pairwise (fun a b : store.MemoryItem => b.Similarity ≤ a.Similarity)
      (store.SearchMemory st q k).2 ∧
    (∀ it ∈ (store.SearchMemory st q k).2,
      -1 ≤ it.Similarity ∧ it.Similarity ≤ 1) ∧
    (store.magnitude q = 0 → (store.SearchMemory st q k).2 = []) := by
  have main : ∀ entries : List store.indexEntry,
      ((store.extract (entries.foldl (store.heapStep k q (store.magnitude q)) [])).length : Int) ≤ k ∧
      List.Pairwise (fun a b : store.MemoryItem => b.Similarity ≤ a.Similarity)
        (store.extract (entries.foldl (store.heapStep k q (store.magnitude q)) [])) ∧
      (∀ it ∈ store.extract (entries.foldl (store.heapStep k q (store.magnitude q)) []),
        -1 ≤ it.Similarity ∧ it.Similarity ≤ 1) := by
    intro entries
    have h := store.topk_props entries q k
    refine ⟨?_, h.2.1, h.2.2⟩
    have := h.1
    omega
  have fromDB : ∀ st' : store.MemState,
      (((store.searchMemoryFromDB st' q k).2.length : Int) ≤ k ∧
       List.Pairwise (fun a b : store.MemoryItem => b.Similarity ≤ a.Similarity)
         (store.searchMemoryFromDB st' q k).2 ∧
       (∀ it ∈ (store.searchMemoryFromDB st' q k).2,
         -1 ≤ it.Similarity ∧ it.Similarity ≤ 1) ∧
       (store.magnitude q = 0 → (store.searchMemoryFromDB st' q k).2 = [])) := by
    intro st'
    by_cases hm : store.magnitude q = 0
    · simp [store.searchMemoryFromDB, hm]
      omega
    · simp only [store.searchMemoryFromDB, if_neg hm]
      exact ⟨(main _).1, (main _).2.1, (main _).2.2, fun h => absurd h hm⟩
  cases hidx : st.index with
  | none => simpa only [store.SearchMemory, hidx] using fromDB st
  | some idx =>
    by_cases hlen : idx.length > 0
    · simp only [store.SearchMemory, hidx, if_pos hlen]
      by_cases hm : store.magnitude q = 0
      · simp [store.vectorIndexSearch, hm]
        omega
      · have hres : store.vectorIndexSearch idx q k =
            store.extract (idx.foldl (store.heapStep k q (store.magnitude q)) []) := by
          simp only [store.vectorIndexSearch]
          rw [if_neg (by push_neg; exact ⟨by omega, by
            intro h; rw [h] at hlen; simp at hlen⟩)]
          rw [if_neg hm]
        simp only [hres]
        exact ⟨(main _).1, (main _).2.1, (main _).2.2, fun h => absurd h hm⟩
    · simpa only [store.SearchMemory, hidx, if_neg hlen] using fromDB st

/-- Closed witness for `c8_search_memory`: the empty store queried with
the zero vector `[0]` and `k = 1` returns the empty list. -/
theorem c8_search_memory_witness :
    (1 : Int) ≤ 1 ∧
    (((store.SearchMemory ⟨[], none⟩ [(0 : ℝ)] 1).2.length : Int) ≤ 1 ∧
     List.Pairwise (fun a b : store.MemoryItem => b.Similarity ≤ a.Similarity)
       (store.SearchMemory ⟨[], none⟩ [(0 : ℝ)] 1).2 ∧
     (∀ it ∈ (store.SearchMemory ⟨[], none⟩ [(0 : ℝ)] 1).2,
       -1 ≤ it.Similarity ∧ it.Similarity ≤ 1) ∧
     (store.magnitude [(0 : ℝ)] = 0 →
       (store.SearchMemory ⟨[], none⟩ [(0 : ℝ)] 1).2 = [])) :=
  ⟨le_refl 1, c8_search_memory ⟨[], none⟩ [(0 : ℝ)] 1 (le_refl 1)⟩

namespace fp

theorem goodSeg_spec {s : GoStr} (h : goodSeg s = true) :
    s ≠ [] ∧ ('/' ∉ s) ∧ s ≠ gs "." ∧ s ≠ gs ".." := by
  unfold goodSeg at h
  simp only [Bool.and_eq_true, List.all_eq_true, bne_iff_ne, ne_eq,
    Bool.not_eq_true'] at h
  obtain ⟨⟨⟨h1, h2⟩, h3⟩, h4⟩ := h
  refine ⟨by simpa [List.isEmpty_iff] using h1, ?_, h3, h4⟩
  intro hc
  simpa using h2 '/' hc

theorem cleanStep_good {rooted : Bool} {stack : List GoStr} {s : GoStr}
    (h : goodSeg s = true) : cleanStep rooted stack s = s :: stack := by
  obtain ⟨h1, _, h3, h4⟩ := goodSeg_spec h
  simp [cleanStep, h1, h3, h4]

theorem foldl_cleanStep_good {rooted : Bool} {segs : List GoStr}
    (h : ∀ s ∈ segs, goodSeg s = true) :
    ∀ stack, segs.foldl (cleanStep rooted) stack = segs.reverse ++ stack := by
  induction segs with
  | nil => intro stack; simp
  | cons s t ih =>
    intro stack
    rw [List.foldl_cons, cleanStep_good (h s (List.mem_cons_self s t)),
      ih (fun x hx => h x (List.mem_cons_of_mem s hx))]
    simp

theorem intercalate_cons₂ (sep x y : GoStr) (zs : List GoStr) :
    sep.intercalate (x :: y :: zs) = x ++ sep ++ sep.intercalate (y :: zs) := by
  simp [List.intercalate, List.intersperse_cons_cons]

theorem intercalate_single (sep x : GoStr) : sep.intercalate [x] = x := by
  simp [List.intercalate]

theorem intercalate_append₂ (sep : GoStr) {xs ys : List GoStr}
    (hxs : xs ≠ []) (hys : ys ≠ []) :
    sep.intercalate (xs ++ ys) = sep.intercalate xs ++ sep ++ sep.intercalate ys := by
  induction xs with
  | nil => exact absurd rfl hxs
  | cons x t ih =>
    cases t with
    | nil =>
      cases ys with
      | nil => exact absurd rfl hys
      | cons y ys' =>
        rw [List.singleton_append, intercalate_cons₂, intercalate_single]
    | cons z t' =>
      have h2 := ih (by simp)
      simp only [List.cons_append] at h2 ⊢
      rw [intercalate_cons₂, intercalate_cons₂, h2]
      simp [List.append_assoc]

theorem intercalate_head {c : Char} {cs : GoStr} (rest : List GoStr) :
    ∃ t, (gs "/").intercalate ((c :: cs) :: rest) = c :: t := by
  cases rest with
  | nil => exact ⟨cs, intercalate_single _ _⟩
  | cons z t' =>
    refine ⟨cs ++ (gs "/" ++ (gs "/").intercalate (z :: t')), ?_⟩
    rw [intercalate_cons₂]
    simp

theorem splitOn_intercalate_good {segs : List GoStr} (hne : segs ≠ [])
    (hx : ∀ s ∈ segs, '/' ∉ s) :
    ((gs "/").intercalate segs).splitOn '/' = segs := by
  have hg : gs "/" = ['/'] := rfl
  rw [hg]
  exact List.splitOn_intercalate segs '/' hx hne

theorem clean_rel_id {segs : List GoStr} (hne : segs ≠ [])
    (hgood : ∀ s ∈ segs, goodSeg s = true) :
    clean ((gs "/").intercalate segs) = (gs "/").intercalate segs := by
  obtain ⟨s₀, rest, rfl⟩ : ∃ s₀ rest, segs = s₀ :: rest := by
    cases segs with
    | nil => exact absurd rfl hne
    | cons a b => exact ⟨a, b, rfl⟩
  obtain ⟨c, cs, rfl⟩ : ∃ c cs, s₀ = c :: cs := by
    have := (goodSeg_spec (hgood s₀ (List.mem_cons_self _ _))).1
    cases s₀ with
    | nil => exact absurd rfl this
    | cons a b => exact ⟨a, b, rfl⟩
  obtain ⟨t, ht⟩ := @intercalate_head c cs rest
  have hc : c ≠ '/' := by
    intro h
    exact (goodSeg_spec (hgood _ (List.mem_cons_self _ _))).2.1
      (h ▸ List.mem_cons_self c cs)
  have hrooted : goHasPfx ((gs "/").intercalate ((c :: cs) :: rest)) (gs "/") = false := by
    rw [ht]
    simp [goHasPfx, List.isPrefixOf, Ne.symm hc]
  simp only [clean]
  rw [hrooted]
  rw [splitOn_intercalate_good hne
    (fun s hs => (goodSeg_spec (hgood s hs)).2.1)]
  rw [foldl_cleanStep_good hgood]
  simp only [List.append_nil, List.reverse_reverse, Bool.false_eq_true,
    if_false]
  rw [if_neg]
  rw [ht]
  simp

theorem clean_abs_id {dsegs : List GoStr} (hne : dsegs ≠ [])
    (hgood : ∀ s ∈ dsegs, goodSeg s = true) :
    clean ('/' :: (gs "/").intercalate dsegs) =
      '/' :: (gs "/").intercalate dsegs := by
  have hform : '/' :: (gs "/").intercalate dsegs =
      (gs "/").intercalate ([] :: dsegs) := by
    cases dsegs with
    | nil => exact absurd rfl hne
    | cons z t => rw [intercalate_cons₂]; rfl
  have hrooted : goHasPfx ('/' :: (gs "/").intercalate dsegs) (gs "/") = true := by
    simp [goHasPfx, List.isPrefixOf]
  simp only [clean]
  rw [hrooted]
  rw [hform, splitOn_intercalate_good (by simp)
    (by
      intro s hs
      rcases List.mem_cons.1 hs with rfl | hs
      · simp
      · exact (goodSeg_spec (hgood s hs)).2.1)]
  rw [List.foldl_cons]
  have hstep : cleanStep true [] [] = [] := by simp [cleanStep]
  rw [hstep, foldl_cleanStep_good hgood]
  simp
  exact hform

theorem no_slashdot : ∀ segs : List GoStr, segs ≠ [] →
    (∀ s ∈ segs, s ≠ [] ∧ '/' ∉ s ∧ s.head? ≠ some '.') →
    ¬ (gs "/." <:+: (gs "/").intercalate segs) := by
  intro segs
  induction segs with
  | nil => intro h; exact absurd rfl h
  | cons s rest ih =>
    intro _ hgood hinf
    cases rest with
    | nil =>
      rw [intercalate_single] at hinf
      exact (hgood s (List.mem_cons_self _ _)).2.1
        (hinf.subset (by decide))
    | cons z t =>
      have hq : (gs "/").intercalate (s :: z :: t) =
          s ++ '/' :: (gs "/").intercalate (z :: t) := by
        rw [intercalate_cons₂, List.append_assoc]
        rfl
      have hzhead : ∃ zc tq, (gs "/").intercalate (z :: t) = zc :: tq ∧ zc ≠ '.' := by
        obtain ⟨zc, zcs, rfl⟩ : ∃ zc zcs, z = zc :: zcs := by
          have := (hgood z (by simp)).1
          cases z with
          | nil => exact absurd rfl this
          | cons a b => exact ⟨a, b, rfl⟩
        obtain ⟨tq, htq⟩ := @intercalate_head zc zcs t
        refine ⟨zc, tq, htq, ?_⟩
        have := (hgood (zc :: zcs) (by simp)).2.2
        simpa using this
      obtain ⟨zc, tq, hzq, hzc⟩ := hzhead
      obtain ⟨u, v, huv⟩ := hinf
      rw [hq, hzq] at huv
      have huv' : u ++ '/' :: '.' :: v = s ++ '/' :: zc :: tq := by
        simpa using huv
      rcases List.append_eq_append_iff.1 huv' with ⟨w, hc1, hc2⟩ | ⟨w, hc1, hc2⟩
      · cases w with
        | nil =>
          rw [List.nil_append] at hc2
          obtain ⟨-, h2⟩ := List.cons.inj hc2
          obtain ⟨h3, -⟩ := List.cons.inj h2
          exact hzc h3.symm
        | cons a w' =>
          have ha : a = '/' := (List.cons.inj hc2).1.symm
          exact (hgood s (by simp)).2.1 (by rw [hc1, ha]; simp)
      · cases w with
        | nil =>
          rw [List.nil_append] at hc2
          obtain ⟨-, h2⟩ := List.cons.inj hc2
          obtain ⟨h3, -⟩ := List.cons.inj h2
          exact hzc h3
        | cons a w' =>
          obtain ⟨-, h2⟩ := List.cons.inj hc2
          refine ih (by simp) (fun x hx => hgood x (by simp [hx])) ?_
          rw [hzq, h2]
          refine ⟨w', v, ?_⟩
          show w' ++ gs "/." ++ v = w'.append ('/' :: '.' :: v)
          rw [List.append_assoc]
          rfl

theorem slashdot_of_slashdotdot {p : GoStr} (h : gs "/../" <:+: p) :
    gs "/." <:+: p :=
  List.IsInfix.trans ⟨[], gs "./", by decide⟩ h

theorem intercalate_all_good_head {segs : List GoStr} (hne : segs ≠ [])
    (hs2 : ∀ s ∈ segs, goodSeg s = true)
    (hs3 : ∀ s ∈ segs, s.head? ≠ some '.') :
    ∃ c t, (gs "/").intercalate segs = c :: t ∧ c ≠ '/' ∧ c ≠ '.' := by
  obtain ⟨s₀, rest, rfl⟩ : ∃ s₀ rest, segs = s₀ :: rest := by
    cases segs with
    | nil => exact absurd rfl hne
    | cons a b => exact ⟨a, b, rfl⟩
  obtain ⟨c, cs, rfl⟩ : ∃ c cs, s₀ = c :: cs := by
    have := (goodSeg_spec (hs2 s₀ (List.mem_cons_self _ _))).1
    cases s₀ with
    | nil => exact absurd rfl this
    | cons a b => exact ⟨a, b, rfl⟩
  obtain ⟨t, ht⟩ := @intercalate_head c cs rest
  refine ⟨c, t, ht, ?_, ?_⟩
  · intro h
    exact (goodSeg_spec (hs2 _ (List.mem_cons_self _ _))).2.1
      (h ▸ List.mem_cons_self c cs)
  · intro h
    exact (hs3 _ (List.mem_cons_self _ _)) (by simp [h])

end fp

namespace store

theorem sanitize_ok (st : StoreState) (dsegs segs : List GoStr)
    (hdir : st.artifactDir = '/' :: (gs "/").intercalate dsegs)
    (hd1 : dsegs ≠ []) (hd2 : ∀ s ∈ dsegs, fp.goodSeg s = true)
    (hs1 : segs ≠ []) (hs2 : ∀ s ∈ segs, fp.goodSeg s = true)
    (hs3 : ∀ s ∈ segs, s.head? ≠ some '.') :
    sanitizeArtifactPath st ((gs "/").intercalate segs) =
      .ok (st.artifactDir ++ gs "/" ++ (gs "/").intercalate segs) := by
  obtain ⟨c, t, hp, hcslash, hcdot⟩ := fp.intercalate_all_good_head hs1 hs2 hs3
  have hclean : fp.clean ((gs "/").intercalate segs) = (gs "/").intercalate segs :=
    fp.clean_rel_id hs1 hs2
  have habs : fp.isAbs ((gs "/").intercalate segs) = false := by
    rw [fp.isAbs, hp]
    simp [goHasPfx, List.isPrefixOf, Ne.symm hcslash]
  have hpfx : goHasPfx ((gs "/").intercalate segs) (gs "..") = false := by
    rw [hp]
    simp [goHasPfx, List.isPrefixOf, Ne.symm hcdot]
  have hcont : goContains ((gs "/").intercalate segs) (gs "/../") = false := by
    apply decide_eq_false
    intro h
    exact fp.no_slashdot segs hs1
      (fun s hs => ⟨(fp.goodSeg_spec (hs2 s hs)).1,
        (fp.goodSeg_spec (hs2 s hs)).2.1, hs3 s hs⟩)
      (fp.slashdot_of_slashdotdot h)
  have hfull : fp.join st.artifactDir ((gs "/").intercalate segs) =
      st.artifactDir ++ gs "/" ++ (gs "/").intercalate segs := by
    have hdirne : st.artifactDir ≠ [] := by rw [hdir]; simp
    have hpne : (gs "/").intercalate segs ≠ [] := by rw [hp]; simp
    have hcat : st.artifactDir ++ gs "/" ++ (gs "/").intercalate segs =
        '/' :: (gs "/").intercalate (dsegs ++ segs) := by
      rw [fp.intercalate_append₂ (gs "/") hd1 hs1, hdir]
      simp [List.append_assoc]
    rw [fp.join, if_neg (by simp [hdirne]), if_neg hdirne, if_neg hpne, hcat]
    rw [← hcat]
    rw [hcat]
    exact fp.clean_abs_id (by simp [hd1]) (by
      intro s hs
      rcases List.mem_append.1 hs with hs | hs
      · exact hd2 s hs
      · exact hs2 s hs)
  have hdirclean : fp.abs st.cwd st.artifactDir = st.artifactDir := by
    rw [fp.abs, if_pos (by rw [hdir]; simp [fp.isAbs, goHasPfx, List.isPrefixOf]), hdir]
    exact fp.clean_abs_id hd1 hd2
  have hfullabs : fp.abs st.cwd
      (st.artifactDir ++ gs "/" ++ (gs "/").intercalate segs) =
      st.artifactDir ++ gs "/" ++ (gs "/").intercalate segs := by
    have hcat : st.artifactDir ++ gs "/" ++ (gs "/").intercalate segs =
        '/' :: (gs "/").intercalate (dsegs ++ segs) := by
      rw [fp.intercalate_append₂ (gs "/") hd1 hs1, hdir]
      simp [List.append_assoc]
    rw [hcat, fp.abs, if_pos (by simp [fp.isAbs, goHasPfx, List.isPrefixOf])]
    exact fp.clean_abs_id (by simp [hd1]) (by
      intro s hs
      rcases List.mem_append.1 hs with hs | hs
      · exact hd2 s hs
      · exact hs2 s hs)
  have hprefix : goHasPfx
      (st.artifactDir ++ gs "/" ++ (gs "/").intercalate segs)
      (st.artifactDir ++ gs "/") = true := by
    rw [goHasPfx, List.isPrefixOf_iff_prefix]
    exact List.prefix_append _ _
  simp only [sanitizeArtifactPath, hclean, habs, hpfx, hcont, hfull,
    hdirclean, hfullabs, hprefix]
  simp

theorem SaveArtifact_ok (st : StoreState) (a : Artifact) (content : GoStr)
    (fullPath : GoStr)
    (hsan : sanitizeArtifactPath st a.Path = .ok fullPath)
    (hid : ∀ r ∈ st.artifacts, r.ID ≠ a.ID) :
    SaveArtifact st a content =
      ({ st with
          fs := (fullPath, content) :: st.fs
          artifacts := st.artifacts ++ [a] }, none) := by
  simp only [SaveArtifact, hsan]
  rw [if_neg]
  · rfl
  · simp only [List.any_eq_true, beq_iff_eq, not_exists, not_and]
    intro r hr
    exact hid r hr

end store

theorem natReprAux_stable : ∀ f g n, n < f → n < g →
    natReprAux f n = natReprAux g n := by
  intro f
  induction f with
  | zero => intro g n h; omega
  | succ f ih =>
    intro g n hf hg
    cases g with
    | zero => omega
    | succ g' =>
      by_cases h10 : n < 10
      · simp [natReprAux, h10]
      · have hpos : 0 < n := by omega
        have hdiv : n / 10 < n := Nat.div_lt_self hpos (by norm_num)
        simp only [natReprAux, h10, if_false]
        rw [ih g' (n / 10) (by omega) (by omega)]

theorem natRepr_unfold (n : Nat) : natRepr n =
    if n < 10 then [Char.ofNat (48 + n)]
    else natRepr (n / 10) ++ [Char.ofNat (48 + n % 10)] := by
  have hstep : natRepr n =
      if n < 10 then [Char.ofNat (48 + n)]
      else natReprAux n (n / 10) ++ [Char.ofNat (48 + n % 10)] := rfl
  rw [hstep]
  by_cases h10 : n < 10
  · simp [h10]
  · have hpos : 0 < n := by omega
    have hdiv : n / 10 < n := Nat.div_lt_self hpos (by norm_num)
    simp only [h10, if_false]
    rw [natReprAux_stable n (n / 10 + 1) (n / 10) (by omega) (by omega)]
    rfl

theorem digit_toNat {m : Nat} (h : m < 10) :
    (Char.ofNat (48 + m)).toNat = 48 + m := by
  interval_cases m <;> decide

theorem digit_isDigit {m : Nat} (h : m < 10) :
    (Char.ofNat (48 + m)).isDigit = true := by
  interval_cases m <;> decide

theorem natRepr_digits (n : Nat) : ∀ c ∈ natRepr n, c.isDigit = true := by
  induction n using Nat.strong_induction_on with
  | _ n ih =>
    rw [natRepr_unfold]
    by_cases h10 : n < 10
    · simp only [h10, if_true]
      intro c hc
      rw [List.mem_singleton] at hc
      rw [hc]
      exact digit_isDigit h10
    · have hpos : 0 < n := by omega
      simp only [h10, if_false]
      intro c hc
      rcases List.mem_append.1 hc with hc | hc
      · exact ih (n / 10) (Nat.div_lt_self hpos (by norm_num)) c hc
      · rw [List.mem_singleton] at hc
        rw [hc]
        exact digit_isDigit (Nat.mod_lt _ (by norm_num))

theorem natRepr_foldl (n : Nat) :
    (natRepr n).foldl (fun acc c => acc * 10 + (c.toNat - 48)) 0 = n := by
  induction n using Nat.strong_induction_on with
  | _ n ih =>
    rw [natRepr_unfold]
    by_cases h10 : n < 10
    · simp only [h10, if_true, List.foldl_cons, List.foldl_nil]
      rw [digit_toNat h10]
      omega
    · have hpos : 0 < n := by omega
      simp only [h10, if_false, List.foldl_append, List.foldl_cons,
        List.foldl_nil]
      rw [ih (n / 10) (Nat.div_lt_self hpos (by norm_num))]
      rw [digit_toNat (Nat.mod_lt _ (by norm_num))]
      omega

theorem natRepr_inj {m n : Nat} (h : natRepr m = natRepr n) : m = n := by
  have hm := natRepr_foldl m
  rw [h, natRepr_foldl] at hm
  omega

theorem takeWhile_digits_stop {D X : GoStr} (hD : ∀ c ∈ D, c.isDigit = true) :
    (D ++ '-' :: X).takeWhile Char.isDigit = D := by
  induction D with
  | nil => simp [List.takeWhile_cons]
  | cons c t ih =>
    rw [List.cons_append, List.takeWhile_cons]
    rw [hD c (List.mem_cons_self _ _)]
    simp only [if_true]
    rw [ih (fun x hx => hD x (List.mem_cons_of_mem c hx))]

theorem last_digits_eq {A B D₁ D₂ : GoStr}
    (h1 : ∀ c ∈ D₁, c.isDigit = true) (h2 : ∀ c ∈ D₂, c.isDigit = true)
    (h : A ++ '-' :: D₁ = B ++ '-' :: D₂) : D₁ = D₂ := by
  have hr := congrArg List.reverse h
  rw [List.reverse_append, List.reverse_cons, List.reverse_append,
    List.reverse_cons] at hr
  have hr' : D₁.reverse ++ '-' :: A.reverse = D₂.reverse ++ '-' :: B.reverse := by
    simpa [List.append_assoc] using hr
  have ht := congrArg (List.takeWhile Char.isDigit) hr'
  rw [takeWhile_digits_stop (fun c hc => h1 c (List.mem_reverse.1 hc)),
    takeWhile_digits_stop (fun c hc => h2 c (List.mem_reverse.1 hc))] at ht
  have := congrArg List.reverse ht
  simpa using this

namespace mcp

theorem safeSeg_spec {s : GoStr} (h : safeSeg s = true) :
    s ≠ [] ∧ ∀ c ∈ s, c.isAlphanum = true ∨ c = '-' ∨ c = '_' := by
  unfold safeSeg at h
  simp only [Bool.and_eq_true, List.all_eq_true, Bool.or_eq_true,
    beq_iff_eq, Bool.not_eq_true'] at h
  refine ⟨by simpa [List.isEmpty_iff] using h.1, ?_⟩
  intro c hc
  have := h.2 c hc
  tauto

theorem safeChar_ne {c : Char}
    (h : c.isAlphanum = true ∨ c = '-' ∨ c = '_') :
    c ≠ '/' ∧ c ≠ '.' := by
  constructor
  · rintro rfl
    rcases h with h | h | h <;> simp_all
  · rintro rfl
    rcases h with h | h | h <;> simp_all

theorem digit_ne {c : Char} (h : c.isDigit = true) : c ≠ '/' ∧ c ≠ '.' := by
  constructor <;> rintro rfl <;> simp_all

/-- The file-name segment of a generated artifact path is a clean
segment whose head is not a dot. -/
theorem fname_good {w : World} {k : Nat} {c : ToolCall}
    (hname : safeSeg c.Name = true) (hid : safeSeg c.ID = true) :
    fp.goodSeg (c.Name ++ gs "_" ++ genUID w k c ++ gs ".txt") = true ∧
    (c.Name ++ gs "_" ++ genUID w k c ++ gs ".txt").head? ≠ some '.' := by
  obtain ⟨hne, hch⟩ := safeSeg_spec hname
  obtain ⟨-, hchid⟩ := safeSeg_spec hid
  obtain ⟨c₀, cs, hc⟩ : ∃ c₀ cs, c.Name = c₀ :: cs := by
    cases hcn : c.Name with
    | nil => exact absurd hcn hne
    | cons a b => exact ⟨a, b, rfl⟩
  have hslash : ∀ x ∈ c.Name ++ gs "_" ++ genUID w k c ++ gs ".txt",
      x ≠ '/' := by
    intro x hx
    have hx' : x ∈ c.Name ∨ x = '_' ∨ x ∈ c.ID ∨ x = '-' ∨
        x ∈ natRepr (w.nano k) ∨ x ∈ gs ".txt" := by
      have e1 : gs "_" = ['_'] := rfl
      have e2 : gs "-" = ['-'] := rfl
      simp only [genUID, List.append_assoc, List.mem_append, e1, e2,
        List.mem_singleton] at hx
      tauto
    rcases hx' with hx' | rfl | hx' | rfl | hx' | hx'
    · exact (safeChar_ne (hch x hx')).1
    · decide
    · exact (safeChar_ne (hchid x hx')).1
    · decide
    · exact (digit_ne (natRepr_digits _ x hx')).1
    · have e3 : gs ".txt" = ['.', 't', 'x', 't'] := rfl
      rw [e3] at hx'
      simp only [List.mem_cons, List.mem_singleton, List.not_mem_nil,
        or_false] at hx'
      rcases hx' with rfl | rfl | rfl | rfl <;> decide
  have hhead : (c.Name ++ gs "_" ++ genUID w k c ++ gs ".txt").head? = some c₀ := by
    rw [hc]
    simp
  have hc₀ : c₀ ≠ '.' := by
    have := hch c₀ (by rw [hc]; exact List.mem_cons_self _ _)
    exact (safeChar_ne this).2
  constructor
  · unfold fp.goodSeg
    simp only [Bool.and_eq_true, List.all_eq_true, bne_iff_ne, ne_eq]
    refine ⟨⟨⟨?_, ?_⟩, ?_⟩, ?_⟩
    · simp [hc, List.isEmpty_iff]
    · intro x hx
      simpa using hslash x hx
    · intro hdot
      have h2 : (gs ".").head? = some '.' := rfl
      have h3 := congrArg List.head? hdot
      rw [hhead, h2] at h3
      exact hc₀ (Option.some.inj h3)
    · intro hdot
      have h2 : (gs "..").head? = some '.' := rfl
      have h3 := congrArg List.head? hdot
      rw [hhead, h2] at h3
      exact hc₀ (Option.some.inj h3)
  · rw [hhead]
    simp [hc₀]

theorem gs_split₁ : gs "artifacts/" = gs "artifacts" ++ gs "/" := rfl

/-- The generated path is the `/`-intercalation of its three segments. -/
theorem genPath_segs (w : World) (k : Nat) (sid : GoStr) (c : ToolCall) :
    genPath w k sid c = (gs "/").intercalate
      [gs "artifacts", sid, c.Name ++ gs "_" ++ genUID w k c ++ gs ".txt"] := by
  rw [fp.intercalate_cons₂, fp.intercalate_cons₂, fp.intercalate_single]
  unfold genPath
  rw [gs_split₁]
  simp [List.append_assoc]

end mcp

namespace mcp

theorem safeSeg_goodSeg {s : GoStr} (h : safeSeg s = true) :
    fp.goodSeg s = true ∧ s.head? ≠ some '.' := by
  obtain ⟨hne, hch⟩ := safeSeg_spec h
  obtain ⟨c₀, cs, rfl⟩ : ∃ c₀ cs, s = c₀ :: cs := by
    cases s with
    | nil => exact absurd rfl hne
    | cons a b => exact ⟨a, b, rfl⟩
  have hc₀ := safeChar_ne (hch c₀ (List.mem_cons_self _ _))
  constructor
  · unfold fp.goodSeg
    simp only [Bool.and_eq_true, List.all_eq_true, bne_iff_ne, ne_eq]
    refine ⟨⟨⟨by simp, ?_⟩, ?_⟩, ?_⟩
    · intro x hx
      simpa using (safeChar_ne (hch x hx)).1
    · intro hdot
      have h2 : (gs ".").head? = some '.' := rfl
      have h3 := congrArg List.head? hdot
      rw [h2] at h3
      simp at h3
      exact hc₀.2 h3
    · intro hdot
      have h2 : (gs "..").head? = some '.' := rfl
      have h3 := congrArg List.head? hdot
      rw [h2] at h3
      simp at h3
      exact hc₀.2 h3
  · simp [hc₀.2]

theorem genId_shape (w : World) (sid : GoStr) (k : Nat) (c : ToolCall) :
    gs "art-" ++ sid ++ gs "-" ++ genUID w k c =
      (gs "art-" ++ sid ++ gs "-" ++ c.ID) ++ '-' :: natRepr (w.nano k) := by
  unfold genUID
  have e2 : gs "-" = ['-'] := rfl
  rw [e2]
  simp [List.append_assoc]

theorem genId_eq_nano {w : World} {sid : GoStr} {k₁ k₂ : Nat}
    {c₁ c₂ : ToolCall}
    (h : gs "art-" ++ sid ++ gs "-" ++ genUID w k₁ c₁ =
        gs "art-" ++ sid ++ gs "-" ++ genUID w k₂ c₂) :
    w.nano k₁ = w.nano k₂ := by
  rw [genId_shape, genId_shape] at h
  exact natRepr_inj (last_digits_eq (natRepr_digits _) (natRepr_digits _) h)

theorem last_digits_txt_eq {A B D₁ D₂ : GoStr}
    (h1 : ∀ c ∈ D₁, c.isDigit = true) (h2 : ∀ c ∈ D₂, c.isDigit = true)
    (h : A ++ '-' :: (D₁ ++ gs ".txt") = B ++ '-' :: (D₂ ++ gs ".txt")) :
    D₁ = D₂ := by
  have hr := congrArg List.reverse h
  rw [List.reverse_append, List.reverse_cons, List.reverse_append] at hr
  rw [List.reverse_append, List.reverse_cons, List.reverse_append] at hr
  have hr' : (gs ".txt").reverse ++ (D₁.reverse ++ '-' :: A.reverse) =
      (gs ".txt").reverse ++ (D₂.reverse ++ '-' :: B.reverse) := by
    simpa [List.append_assoc] using hr
  have hd := congrArg (List.drop 4) hr'
  have hlen : (gs ".txt").reverse.length = 4 := rfl
  rw [show (4 : Nat) = (gs ".txt").reverse.length from rfl,
    List.drop_left, List.drop_left] at hd
  have ht := congrArg (List.takeWhile Char.isDigit) hd
  rw [takeWhile_digits_stop (fun c hc => h1 c (List.mem_reverse.1 hc)),
    takeWhile_digits_stop (fun c hc => h2 c (List.mem_reverse.1 hc))] at ht
  simpa using congrArg List.reverse ht

theorem genPath_shape (w : World) (sid : GoStr) (k : Nat) (c : ToolCall) :
    genPath w k sid c =
      (gs "artifacts/" ++ sid ++ gs "/" ++ c.Name ++ gs "_" ++ c.ID) ++
        '-' :: (natRepr (w.nano k) ++ gs ".txt") := by
  unfold genPath genUID
  have e2 : gs "-" = ['-'] := rfl
  rw [e2]
  simp [List.append_assoc]

theorem genPath_eq_nano {w : World} {sid : GoStr} {k₁ k₂ : Nat}
    {c₁ c₂ : ToolCall}
    (h : genPath w k₁ sid c₁ = genPath w k₂ sid c₂) :
    w.nano k₁ = w.nano k₂ := by
  rw [genPath_shape, genPath_shape] at h
  exact natRepr_inj
    (last_digits_txt_eq (natRepr_digits _) (natRepr_digits _) h)

end mcp

theorem find?_unique {α : Type} {p : α → Bool} {l : List α} {e : α}
    (he : e ∈ l) (hpe : p e = true)
    (huniq : ∀ x ∈ l, p x = true → x = e) : l.find? p = some e := by
  induction l with
  | nil => exact absurd he (List.not_mem_nil e)
  | cons h t ih =>
    rw [List.find?_cons]
    by_cases hp : p h = true
    · rw [hp]
      rw [huniq h (List.mem_cons_self _ _) hp]
    · rw [Bool.not_eq_true] at hp
      rw [hp]
      rcases List.mem_cons.1 he with rfl | he'
      · rw [hpe] at hp; cases hp
      · exact ih he' (fun x hx hpx => huniq x (List.mem_cons_of_mem _ hx) hpx)

theorem sanitize_genPath (st : store.StoreState) (w : mcp.World)
    (sid : GoStr) (k : Nat) (c : mcp.ToolCall) (dsegs : List GoStr)
    (hdir : st.artifactDir = '/' :: (gs "/").intercalate dsegs)
    (hd1 : dsegs ≠ []) (hd2 : ∀ s ∈ dsegs, fp.goodSeg s = true)
    (hsid : mcp.safeSeg sid = true)
    (hcid : mcp.safeSeg c.ID = true) (hcname : mcp.safeSeg c.Name = true) :
    store.sanitizeArtifactPath st (mcp.genPath w k sid c) =
      .ok (st.artifactDir ++ gs "/" ++ mcp.genPath w k sid c) := by
  rw [mcp.genPath_segs]
  refine store.sanitize_ok st dsegs _ hdir hd1 hd2 (by simp) ?_ ?_
  · intro s hs
    simp only [List.mem_cons, List.mem_singleton, List.not_mem_nil,
      or_false] at hs
    rcases hs with rfl | rfl | rfl
    · decide
    · exact (mcp.safeSeg_goodSeg hsid).1
    · exact (mcp.fname_good hcname hcid).1
  · intro s hs
    simp only [List.mem_cons, List.mem_singleton, List.not_mem_nil,
      or_false] at hs
    rcases hs with rfl | rfl | rfl
    · decide
    · exact (mcp.safeSeg_goodSeg hsid).2
    · exact (mcp.fname_good hcname hcid).2

theorem HandleToolCalls_spec (g : guard.Policy) (w : mcp.World)
    (sid : GoStr) (dsegs : List GoStr) (hd1 : dsegs ≠ [])
    (hd2 : ∀ s ∈ dsegs, fp.goodSeg s = true)
    (hsid : mcp.safeSeg sid = true) (hmono : StrictMono w.nano) :
    ∀ (calls : List mcp.ToolCall) (st : store.StoreState) (clock : Nat),
      st.artifactDir = '/' :: (gs "/").intercalate dsegs →
      (∀ c ∈ calls, mcp.safeSeg c.ID = true ∧ mcp.safeSeg c.Name = true) →
      (∀ r ∈ st.artifacts, ∀ k, clock ≤ k → ∀ c : mcp.ToolCall,
        r.ID ≠ gs "art-" ++ sid ++ gs "-" ++ mcp.genUID w k c) →
      mcp.HandleToolCalls g w st clock sid calls =
        ({ st with
            fs := ((calls.enumFrom clock).map (fun p =>
              (st.artifactDir ++ gs "/" ++ mcp.genPath w p.1 sid p.2,
               mcp.rawOutput g w st.cwd p.2))).reverse ++ st.fs
            artifacts := st.artifacts ++ (calls.enumFrom clock).map
              (fun p => mcp.genArtifact g w st.cwd p.1 sid p.2) },
         clock + calls.length,
         .ok ((calls.enumFrom clock).map
           (fun p => mcp.genResult g w st.cwd p.1 sid p.2))) := by
  intro calls
  induction calls with
  | nil =>
    intro st clock hdir _ _
    simp [mcp.HandleToolCalls]
  | cons c rest ih =>
    intro st clock hdir hsafe hfresh
    have hsan := sanitize_genPath st w sid clock c dsegs hdir hd1 hd2 hsid
      (hsafe c (List.mem_cons_self _ _)).1 (hsafe c (List.mem_cons_self _ _)).2
    have hsave := store.SaveArtifact_ok st
      (mcp.genArtifact g w st.cwd clock sid c) (mcp.rawOutput g w st.cwd c)
      (st.artifactDir ++ gs "/" ++ mcp.genPath w clock sid c)
      hsan
      (fun r hr => hfresh r hr clock le_rfl c)
    have step : mcp.handleOneCall g w st clock sid c =
        ({ st with
            fs := (st.artifactDir ++ gs "/" ++ mcp.genPath w clock sid c,
              mcp.rawOutput g w st.cwd c) :: st.fs
            artifacts := st.artifacts ++ [mcp.genArtifact g w st.cwd clock sid c] },
         clock + 1, .ok (mcp.genResult g w st.cwd clock sid c)) := by
      simp only [mcp.handleOneCall, hsave]
    have hrec := ih
      ({ st with
          fs := (st.artifactDir ++ gs "/" ++ mcp.genPath w clock sid c,
            mcp.rawOutput g w st.cwd c) :: st.fs
          artifacts := st.artifacts ++ [mcp.genArtifact g w st.cwd clock sid c] })
      (clock + 1) hdir
      (fun x hx => hsafe x (List.mem_cons_of_mem c hx))
      (by
        intro r hr k hk c'
        rcases List.mem_append.1 hr with hr | hr
        · exact hfresh r hr k (by omega) c'
        · rw [List.mem_singleton] at hr
          subst hr
          intro hbad
          have hnano := mcp.genId_eq_nano hbad
          have := hmono (show clock < k by omega)
          omega)
    simp only [mcp.HandleToolCalls, step, hrec]
    simp only [List.enumFrom_cons, List.map_cons, List.reverse_cons]
    refine Prod.ext ?_ (Prod.ext ?_ ?_)
    · simp [List.append_assoc]
    · simp
      omega
    · simp

set_option maxHeartbeats 2000000 in
/-- C9: every tool call the proxy handles — including rejected and
unknown-tool calls — persists an artifact whose recorded digest is the
SHA-256 hex of the stored content, and `get_artifact` on it returns
exactly the saved bytes.  Hypotheses: the artifact root is an absolute
clean directory, the session id and the calls' names and ids are plain
identifiers, the nanosecond clock is strictly increasing, and no
pre-existing artifact row uses this session's generated-id prefix. -/
theorem c9_artifact_roundtrip
    (g : guard.Policy) (w : mcp.World) (st : store.StoreState) (clock : Nat)
    (sid : GoStr) (calls : List mcp.ToolCall) (dsegs : List GoStr)
    (hd1 : dsegs ≠ []) (hd2 : ∀ s ∈ dsegs, fp.goodSeg s = true)
    (hdir : st.artifactDir = '/' :: (gs "/").intercalate dsegs)
    (hsid : mcp.safeSeg sid = true)
    (hsafe : ∀ c ∈ calls, mcp.safeSeg c.ID = true ∧ mcp.safeSeg c.Name = true)
    (hmono : StrictMono w.nano)
    (hfresh : ∀ r ∈ st.artifacts,
      goHasPfx r.ID (gs "art-" ++ sid ++ gs "-") = false) :
    ∃ results : List mcp.ToolResult,
      (mcp.HandleToolCalls g w st clock sid calls).2.2 = .ok results ∧
      results.length = calls.length ∧
      ∀ i (hi : i < calls.length),
        (mcp.genArtifact g w st.cwd (clock + i) sid calls[i]) ∈
          (mcp.HandleToolCalls g w st clock sid calls).1.artifacts ∧
        (mcp.genArtifact g w st.cwd (clock + i) sid calls[i]).Digest =
          sha.sha256Hex (mcp.rawOutput g w st.cwd calls[i]) ∧
        store.GetArtifact (mcp.HandleToolCalls g w st clock sid calls).1
            (mcp.genArtifact g w st.cwd (clock + i) sid calls[i]).ID =
          .ok (mcp.genArtifact g w st.cwd (clock + i) sid calls[i],
               mcp.rawOutput g w st.cwd calls[i]) := by
  have hfresh' : ∀ r ∈ st.artifacts, ∀ k, clock ≤ k → ∀ c : mcp.ToolCall,
      r.ID ≠ gs "art-" ++ sid ++ gs "-" ++ mcp.genUID w k c := by
    intro r hr k _ c hbad
    have hpfx : goHasPfx r.ID (gs "art-" ++ sid ++ gs "-") = true := by
      rw [hbad, goHasPfx, List.isPrefixOf_iff_prefix]
      exact List.prefix_append _ _
    rw [hfresh r hr] at hpfx
    cases hpfx
  have hspec := HandleToolCalls_spec g w sid dsegs hd1 hd2 hsid hmono calls
    st clock hdir hsafe hfresh'
  rw [hspec]
  refine ⟨_, rfl, by simp, ?_⟩
  intro i hi
  have hilen : i < (calls.enumFrom clock).length := by simpa using hi
  have hmem : (clock + i, calls[i]) ∈ calls.enumFrom clock := by
    have := List.getElem_enumFrom calls clock i hilen
    exact this ▸ List.getElem_mem hilen
  refine ⟨?_, rfl, ?_⟩
  · simp only [store.StoreState.artifacts]
    refine List.mem_append_right _ ?_
    exact List.mem_map.2 ⟨(clock + i, calls[i]), hmem, rfl⟩
  · have hfind : (st.artifacts ++ (calls.enumFrom clock).map
        (fun p => mcp.genArtifact g w st.cwd p.1 sid p.2)).find?
        (fun r => r.ID == (mcp.genArtifact g w st.cwd (clock + i) sid calls[i]).ID) =
        some (mcp.genArtifact g w st.cwd (clock + i) sid calls[i]) := by
      rw [List.find?_append]
      have h1 : st.artifacts.find?
          (fun r => r.ID == (mcp.genArtifact g w st.cwd (clock + i) sid calls[i]).ID)
          = none := by
        rw [List.find?_eq_none]
        intro r hr
        simp only [beq_iff_eq, Bool.not_eq_true]
        intro hbad
        exact hfresh' r hr (clock + i) (by omega) calls[i] hbad
      rw [h1, Option.none_or]
      apply find?_unique
      · exact List.mem_map.2 ⟨(clock + i, calls[i]), hmem, rfl⟩
      · simp
      · intro x hx hpx
        obtain ⟨⟨k', c'⟩, hp, rfl⟩ := List.mem_map.1 hx
        simp only [beq_iff_eq] at hpx
        have hnano := mcp.genId_eq_nano hpx
        have hk' : k' = clock + i := hmono.injective hnano
        subst hk'
        obtain ⟨hk1, hk2, hc⟩ := List.mem_enumFrom hp
        have : c' = calls[i] := by
          rw [hc]
          congr 1
          omega
        rw [this]
    have hsan2 : store.sanitizeArtifactPath
        ({ st with
            fs := ((calls.enumFrom clock).map (fun p =>
              (st.artifactDir ++ gs "/" ++ mcp.genPath w p.1 sid p.2,
               mcp.rawOutput g w st.cwd p.2))).reverse ++ st.fs
            artifacts := st.artifacts ++ (calls.enumFrom clock).map
              (fun p => mcp.genArtifact g w st.cwd p.1 sid p.2) } :
          store.StoreState)
        (mcp.genPath w (clock + i) sid calls[i]) =
        .ok (st.artifactDir ++ gs "/" ++ mcp.genPath w (clock + i) sid calls[i]) :=
      sanitize_genPath _ w sid (clock + i) calls[i] dsegs hdir hd1 hd2 hsid
        (hsafe calls[i] (List.getElem_mem hi)).1
        (hsafe calls[i] (List.getElem_mem hi)).2
    have hread : store.fsRead
        (((calls.enumFrom clock).map (fun p =>
          (st.artifactDir ++ gs "/" ++ mcp.genPath w p.1 sid p.2,
           mcp.rawOutput g w st.cwd p.2))).reverse ++ st.fs)
        (st.artifactDir ++ gs "/" ++ mcp.genPath w (clock + i) sid calls[i]) =
        some (mcp.rawOutput g w st.cwd calls[i]) := by
      unfold store.fsRead
      rw [List.find?_append]
      have h2 : (((calls.enumFrom clock).map (fun p =>
          (st.artifactDir ++ gs "/" ++ mcp.genPath w p.1 sid p.2,
           mcp.rawOutput g w st.cwd p.2))).reverse).find?
          (fun e => e.1 == st.artifactDir ++ gs "/" ++
            mcp.genPath w (clock + i) sid calls[i]) =
          some (st.artifactDir ++ gs "/" ++
            mcp.genPath w (clock + i) sid calls[i],
            mcp.rawOutput g w st.cwd calls[i]) := by
        apply find?_unique
        · rw [List.mem_reverse]
          exact List.mem_map.2 ⟨(clock + i, calls[i]), hmem, rfl⟩
        · simp
        · intro x hx hpx
          rw [List.mem_reverse] at hx
          obtain ⟨⟨k', c'⟩, hp, rfl⟩ := List.mem_map.1 hx
          simp only [beq_iff_eq] at hpx
          have hpath : mcp.genPath w k' sid c' =
              mcp.genPath w (clock + i) sid calls[i] :=
            List.append_cancel_left hpx
          have hnano := mcp.genPath_eq_nano hpath
          have hk' : k' = clock + i := hmono.injective hnano
          subst hk'
          obtain ⟨hk1, hk2, hc⟩ := List.mem_enumFrom hp
          have : c' = calls[i] := by
            rw [hc]
            congr 1
            omega
          rw [this]
      rw [h2]
      simp
    simp only [store.GetArtifact, store.StoreState.artifacts, hfind,
      show (mcp.genArtifact g w st.cwd (clock + i) sid calls[i]).Path =
        mcp.genPath w (clock + i) sid calls[i] from rfl, hsan2, hread]

/-- Closed witness for `c9_artifact_roundtrip`: one malformed
`run_shell` call against a fresh store persists its artifact and
round-trips. -/
theorem c9_artifact_roundtrip_witness :
    ∃ results : List mcp.ToolResult,
      (mcp.HandleToolCalls ⟨20, 1, 1, [gs "*"], [], true⟩
        ⟨fun _ => none, fun _ => ([], none), fun k => k⟩
        ⟨gs "/arts", gs "/w", [], []⟩ 0 (gs "s1")
        [⟨gs "c1", gs "run_shell", .malformed⟩]).2.2 = .ok results ∧
      results.length = 1 ∧
      ∀ i (hi : i < ([⟨gs "c1", gs "run_shell", .malformed⟩] :
          List mcp.ToolCall).length),
        (mcp.genArtifact ⟨20, 1, 1, [gs "*"], [], true⟩
            ⟨fun _ => none, fun _ => ([], none), fun k => k⟩ (gs "/w")
            (0 + i) (gs "s1")
            ([⟨gs "c1", gs "run_shell", .malformed⟩] : List mcp.ToolCall)[i]) ∈
          (mcp.HandleToolCalls ⟨20, 1, 1, [gs "*"], [], true⟩
            ⟨fun _ => none, fun _ => ([], none), fun k => k⟩
            ⟨gs "/arts", gs "/w", [], []⟩ 0 (gs "s1")
            [⟨gs "c1", gs "run_shell", .malformed⟩]).1.artifacts ∧
        (mcp.genArtifact ⟨20, 1, 1, [gs "*"], [], true⟩
            ⟨fun _ => none, fun _ => ([], none), fun k => k⟩ (gs "/w")
            (0 + i) (gs "s1")
            ([⟨gs "c1", gs "run_shell", .malformed⟩] : List mcp.ToolCall)[i]).Digest =
          sha.sha256Hex (mcp.rawOutput ⟨20, 1, 1, [gs "*"], [], true⟩
            ⟨fun _ => none, fun _ => ([], none), fun k => k⟩ (gs "/w")
            ([⟨gs "c1", gs "run_shell", .malformed⟩] : List mcp.ToolCall)[i]) ∧
        store.GetArtifact
            (mcp.HandleToolCalls ⟨20, 1, 1, [gs "*"], [], true⟩
              ⟨fun _ => none, fun _ => ([], none), fun k => k⟩
              ⟨gs "/arts", gs "/w", [], []⟩ 0 (gs "s1")
              [⟨gs "c1", gs "run_shell", .malformed⟩]).1
            (mcp.genArtifact ⟨20, 1, 1, [gs "*"], [], true⟩
              ⟨fun _ => none, fun _ => ([], none), fun k => k⟩ (gs "/w")
              (0 + i) (gs "s1")
              ([⟨gs "c1", gs "run_shell", .malformed⟩] : List mcp.ToolCall)[i]).ID =
          .ok (mcp.genArtifact ⟨20, 1, 1, [gs "*"], [], true⟩
              ⟨fun _ => none, fun _ => ([], none), fun k => k⟩ (gs "/w")
              (0 + i) (gs "s1")
              ([⟨gs "c1", gs "run_shell", .malformed⟩] : List mcp.ToolCall)[i],
            mcp.rawOutput ⟨20, 1, 1, [gs "*"], [], true⟩
              ⟨fun _ => none, fun _ => ([], none), fun k => k⟩ (gs "/w")
              ([⟨gs "c1", gs "run_shell", .malformed⟩] : List mcp.ToolCall)[i]) :=
  c9_artifact_roundtrip ⟨20, 1, 1, [gs "*"], [], true⟩
    ⟨fun _ => none, fun _ => ([], none), fun k => k⟩
    ⟨gs "/arts", gs "/w", [], []⟩ 0 (gs "s1")
    [⟨gs "c1", gs "run_shell", .malformed⟩] [gs "arts"]
    (by decide) (by decide) (by decide) (by decide) (by decide)
    (fun a b h => h) (by decide)

namespace runtime

theorem quiet_step (cfg : RunCfg) (sto0 : store.StoreState) (status0 : GoStr)
    (resp : Nat → Response) (N j : Nat)
    (hN : cfg.policy.MaxIterations = (N : Int)) (hN20 : N ≤ 20)
    (hj : j < N)
    (hchat : ∀ n, cfg.chat n = .ok (resp n))
    (hdone : ∀ n, hasDoneHint (resp n).Content = false)
    (htc : ∀ n, (resp n).ToolCalls = [])
    (hpt : ptSum resp j ≤ cfg.policy.MaxPromptTokens)
    (hpt3 : ptSum resp j ≤ 3000)
    (hot : otSum resp j ≤ cfg.policy.MaxOutputTokens) :
    iterate cfg (quietState cfg sto0 status0 resp j) =
      .cont (quietState cfg sto0 status0 resp (j + 1)) := by
  have hcb : guard.CheckBudget cfg.policy ((j + 1 : Nat) : Int)
      (ptSum resp j) (otSum resp j) = none := by
    unfold guard.CheckBudget
    rw [hN]
    rw [if_neg (by push_cast; omega), if_neg (by omega), if_neg (by omega)]
  have hlen : (quietState cfg sto0 status0 resp j).history.length = j + 1 := by
    simp [quietState]
  have hrol : ¬((quietState cfg sto0 status0 resp j).history.length > 20 ∨
      (quietState cfg sto0 status0 resp j).pt > (3000 : Int)) := by
    push_neg
    refine ⟨by omega, ?_⟩
    simpa [quietState] using hpt3
  simp only [iterate, quietState] at hrol ⊢
  rw [hcb]
  rw [if_neg hrol]
  simp only [hchat j, htc j, List.isEmpty_nil, if_true]
  simp only [afterTools, hdone j, Bool.false_eq_true, if_false]
  simp [quietState, ptSum, otSum, List.range_succ, htc j]

theorem quiet_run (cfg : RunCfg) (sto0 : store.StoreState) (status0 : GoStr)
    (resp : Nat → Response) (N : Nat)
    (hN : cfg.policy.MaxIterations = (N : Int)) (hN20 : N ≤ 20)
    (hchat : ∀ n, cfg.chat n = .ok (resp n))
    (hdone : ∀ n, hasDoneHint (resp n).Content = false)
    (htc : ∀ n, (resp n).ToolCalls = [])
    (hpt : ∀ j < N, ptSum resp j ≤ cfg.policy.MaxPromptTokens ∧
      ptSum resp j ≤ 3000)
    (hot : ∀ j < N, otSum resp j ≤ cfg.policy.MaxOutputTokens) :
    ∀ k j, j + k = N →
    run cfg (k + 1) (quietState cfg sto0 status0 resp j) =
      (.guardViolation ⟨gs "max_iterations", gs "Iteration limit exceeded", true⟩,
        { quietState cfg sto0 status0 resp N with
            iter := N + 1, status := gs "halted", persisted := gs "halted" }) := by
  intro k
  induction k with
  | zero =>
    intro j hjk
    have hj : N = j := by omega
    subst hj
    have hcb : guard.CheckBudget cfg.policy ((N + 1 : Nat) : Int)
        (ptSum resp N) (otSum resp N) =
        some ⟨gs "max_iterations", gs "Iteration limit exceeded", true⟩ := by
      unfold guard.CheckBudget
      rw [hN]
      rw [if_pos (by push_cast; omega)]
    simp only [run, iterate, quietState]
    rw [hcb]
  | succ k ih =>
    intro j hjk
    have hj : j < N := by omega
    have hstep := quiet_step cfg sto0 status0 resp N j hN hN20 hj hchat hdone
      htc (hpt j hj).1 (hpt j hj).2 (hot j hj)
    show run cfg (k + 1 + 1) (quietState cfg sto0 status0 resp j) = _
    rw [run, hstep]
    exact ih (j + 1) (by omega)

/-- C6: with `max_iterations = N` and a provider that never claims
completion, never calls tools, and stays within the token budgets, the
loop makes exactly `N` model calls; the pre-flight check of iteration
`N + 1` fires, the state is marked and persisted `halted`, and the run
ends with the fatal `max_iterations` violation. -/
theorem c6_max_iterations (cfg : RunCfg) (sto0 : store.StoreState)
    (status0 : GoStr) (resp : Nat → Response) (N : Nat)
    (hN : cfg.policy.MaxIterations = (N : Int)) (hN20 : N ≤ 20)
    (hchat : ∀ n, cfg.chat n = .ok (resp n))
    (hdone : ∀ n, hasDoneHint (resp n).Content = false)
    (htc : ∀ n, (resp n).ToolCalls = [])
    (hpt : ∀ j < N, ptSum resp j ≤ cfg.policy.MaxPromptTokens ∧
      ptSum resp j ≤ 3000)
    (hot : ∀ j < N, otSum resp j ≤ cfg.policy.MaxOutputTokens) :
    ∃ v st',
      ExecuteSession cfg sto0 status0 = (.guardViolation v, st') ∧
      v = ⟨gs "max_iterations", gs "Iteration limit exceeded", true⟩ ∧
      v.Fatal = true ∧
      st'.chatCalls = N ∧ st'.iter = N + 1 ∧
      st'.status = gs "halted" ∧ st'.persisted = gs "halted" := by
  have hinit : initState cfg sto0 status0 =
      quietState cfg sto0 status0 resp 0 := by
    simp [initState, quietState, ptSum, otSum]
  have hrun := quiet_run cfg sto0 status0 resp N hN hN20 hchat hdone htc hpt
    hot N 0 (by omega)
  refine ⟨⟨gs "max_iterations", gs "Iteration limit exceeded", true⟩,
    { quietState cfg sto0 status0 resp N with
        iter := N + 1, status := gs "halted", persisted := gs "halted" },
    ?_, rfl, rfl, ?_, rfl, rfl, rfl⟩
  · unfold ExecuteSession
    rw [hN, hinit]
    simpa using hrun
  · simp [quietState]

end runtime

namespace runtime

/-- Closed witness for `c6_max_iterations`: `max_iterations = 1` and a
quiet adapter halt on iteration 2 with exactly one model call. -/
theorem c6_max_iterations_witness :
    ∃ v st',
      ExecuteSession
        ⟨⟨1, 100, 100, [gs "*"], [], true⟩, ⟨gs "g", gs "d", [], []⟩,
          fun _ => .ok ⟨gs "working", [], ⟨0, 0, 0⟩⟩, false, fun _ _ => true,
          ⟨fun _ => none, fun _ => ([], none), fun k => k⟩, gs "s", gs "m"⟩
        ⟨gs "/a", gs "/w", [], []⟩ (gs "running") =
        (.guardViolation v, st') ∧
      v = ⟨gs "max_iterations", gs "Iteration limit exceeded", true⟩ ∧
      v.Fatal = true ∧
      st'.chatCalls = 1 ∧ st'.iter = 1 + 1 ∧
      st'.status = gs "halted" ∧ st'.persisted = gs "halted" :=
  c6_max_iterations
    ⟨⟨1, 100, 100, [gs "*"], [], true⟩, ⟨gs "g", gs "d", [], []⟩,
      fun _ => .ok ⟨gs "working", [], ⟨0, 0, 0⟩⟩, false, fun _ _ => true,
      ⟨fun _ => none, fun _ => ([], none), fun k => k⟩, gs "s", gs "m"⟩
    ⟨gs "/a", gs "/w", [], []⟩ (gs "running")
    (fun _ => ⟨gs "working", [], ⟨0, 0, 0⟩⟩) 1 rfl (by omega)
    (fun _ => rfl)
    (by intro n; show hasDoneHint (gs "working") = false; decide)
    (fun _ => rfl)
    (by
      intro j hj
      have h0 : j = 0 := by omega
      subst h0
      exact ⟨by norm_num [ptSum], by norm_num [ptSum]⟩)
    (by
      intro j hj
      have h0 : j = 0 := by omega
      subst h0
      norm_num [otSum])

end runtime

namespace runtime

theorem afterTools_halt_evidence {cfg : RunCfg} {st : RunState}
    {resp : Response} {o : RunOutcome} {st' : RunState}
    (h : afterTools cfg st resp = .halt o st') :
    o = .completed ∧ ∀ e ∈ cfg.spec.Evidence, cfg.fs st.iter e = true := by
  cases hd : hasDoneHint resp.Content with
  | false =>
    simp only [afterTools, hd, Bool.false_eq_true, if_false] at h
    exact StepRes.noConfusion h
  | true =>
    cases hv : verifyEvidence (cfg.fs st.iter) cfg.spec with
    | some detail =>
      simp only [afterTools, hd, if_true, hv] at h
      exact StepRes.noConfusion h
    | none =>
      have hfind : cfg.spec.Evidence.find? (fun e => !cfg.fs st.iter e) =
          none := by
        unfold verifyEvidence at hv
        exact Option.map_eq_none.mp hv
      refine ⟨?_, ?_⟩
      · simp only [afterTools, hd, if_true, hv] at h
        cases hc : cfg.chat (st.adapterCalls) with
        | error e =>
          rw [hc] at h
          injection h with h1 h2
          exact h1.symm
        | ok r =>
          rw [hc] at h
          injection h with h1 h2
          exact h1.symm
      · intro e he
        have := List.find?_eq_none.mp hfind e he
        simpa using this

theorem iterate_completed {cfg : RunCfg} {st st' : RunState}
    (h : iterate cfg st = .halt .completed st') :
    ∃ k, ∀ e ∈ cfg.spec.Evidence, cfg.fs k e = true := by
  simp only [iterate] at h
  cases hcb : guard.CheckBudget cfg.policy ((st.iter + 1 : Nat) : Int)
      st.pt st.ot with
  | some v =>
    rw [hcb] at h
    injection h with h1 h2
    exact RunOutcome.noConfusion h1
  | none =>
    rw [hcb] at h
    repeat' split at h
    all_goals
      first
      | (injection h with h1 h2; exact RunOutcome.noConfusion h1)
      | exact ⟨_, (afterTools_halt_evidence h).2⟩

theorem run_completed_evidence (cfg : RunCfg) :
    ∀ fuel st0, (run cfg fuel st0).1 = .completed →
      ∃ k, ∀ e ∈ cfg.spec.Evidence, cfg.fs k e = true := by
  intro fuel
  induction fuel with
  | zero =>
    intro st0 h
    exact absurd h (by simp [run])
  | succ n ih =>
    intro st0 h
    rw [run] at h
    cases hi : iterate cfg st0 with
    | cont st1 =>
      rw [hi] at h
      exact ih st1 h
    | halt o st1 =>
      rw [hi] at h
      simp at h
      subst h
      exact iterate_completed hi

/-- C7: when the assistant's text carries a completion phrase but some
evidence path is missing, the iteration appends a
`Verification failed:` user turn, keeps (and persists) status
`running`, and continues the loop; and any run of the loop — in
particular `ExecuteSession` — ends `completed` only if at the
verification moment every evidence path existed. -/
theorem c7_verification_gate (cfg : RunCfg) (st : RunState) (resp : Response)
    (hdone : hasDoneHint resp.Content = true)
    (hmiss : ∃ e ∈ cfg.spec.Evidence, cfg.fs st.iter e = false) :
    (∃ detail,
      afterTools cfg st resp = .cont { st with
        history := st.history ++ [verifFailMessage detail]
        status := gs "running"
        persisted := gs "running" } ∧
      goHasPfx (verifFailMessage detail).Content
        (gs "Verification failed: ") = true) ∧
    (∀ fuel st0, (run cfg fuel st0).1 = .completed →
      ∃ k, ∀ e ∈ cfg.spec.Evidence, cfg.fs k e = true) ∧
    (∀ sto0 status0, (ExecuteSession cfg sto0 status0).1 = .completed →
      ∃ k, ∀ e ∈ cfg.spec.Evidence, cfg.fs k e = true) := by
  refine ⟨?_, run_completed_evidence cfg,
    fun sto0 status0 h => run_completed_evidence cfg _ _ h⟩
  have hsome : (cfg.spec.Evidence.find? (fun e => !cfg.fs st.iter e)).isSome := by
    rw [List.find?_isSome]
    obtain ⟨e, he, hf⟩ := hmiss
    exact ⟨e, he, by simp [hf]⟩
  obtain ⟨e0, hfind⟩ := Option.isSome_iff_exists.mp hsome
  have hv : verifyEvidence (cfg.fs st.iter) cfg.spec =
      some (gs "missing evidence: " ++ e0) := by
    unfold verifyEvidence
    rw [hfind]
    rfl
  refine ⟨gs "missing evidence: " ++ e0, ?_, ?_⟩
  · simp only [afterTools, hdone, if_true, hv]
  · rw [goHasPfx, List.isPrefixOf_iff_prefix]
    show gs "Verification failed: " <+:
      gs "Verification failed: " ++ (gs "missing evidence: " ++ e0) ++
        gs ". Please correct and ensure the Evidence is present."
    rw [List.append_assoc]
    exact List.prefix_append _ _

/-- Closed witness for `c7_verification_gate`: a `task complete`
response with evidence `out.txt` absent from the filesystem. -/
theorem c7_verification_gate_witness :
    (∃ detail,
      afterTools c7Cfg c7St ⟨gs "task complete", [], ⟨0, 0, 0⟩⟩ =
        .cont { c7St with
          history := c7St.history ++ [verifFailMessage detail]
          status := gs "running"
          persisted := gs "running" } ∧
      goHasPfx (verifFailMessage detail).Content
        (gs "Verification failed: ") = true) ∧
    (∀ fuel st0, (run c7Cfg fuel st0).1 = .completed →
      ∃ k, ∀ e ∈ c7Cfg.spec.Evidence, c7Cfg.fs k e = true) ∧
    (∀ sto0 status0, (ExecuteSession c7Cfg sto0 status0).1 = .completed →
      ∃ k, ∀ e ∈ c7Cfg.spec.Evidence, c7Cfg.fs k e = true) :=
  c7_verification_gate c7Cfg c7St ⟨gs "task complete", [], ⟨0, 0, 0⟩⟩
    (by decide) ⟨gs "out.txt", by simp [c7Cfg], rfl⟩

end runtime
